import Mathlib

/-!
Shallow embedding of the reference (ref) backend of `src/refs.c` (libgit2
snapshot).  C byte strings are modelled as `List Char` (all data is ASCII),
`size_t` arithmetic is carried out modulo `2^64` where the source relies on
wraparound, fallible C functions returning negative codes are modelled with
`Except Err`, and the filesystem / object database collaborators are modelled
as explicit finite maps threaded through the functions.
-/

namespace Refs

/-- Error kinds.  Each constructor models one of the `GIT_E...` return codes
(or a `giterr_set` + `-1` pattern) used by `refs.c`. -/
inductive Err where
  | ENOTFOUND
  | ENOMEM
  | EINVALIDREFNAME
  | EEXISTS
  | EOBJCORRUPTED
  | EPACKEDREFSCORRUPTED
  | ENOTOID
  | EOSERR
  | ETOONESTED
  | EINVALIDTYPE
  | EINVALIDTARGET
deriving DecidableEq, Repr

/-- Shorthand: the character list of a string literal. -/
def L (s : String) : List Char := s.data

/-- C `strcmp` on byte strings, with the sign of the result canonicalized to
`-1 / 0 / 1` (only the sign is ever used by the source). -/
def strcmp : List Char → List Char → Int
  | [], [] => 0
  | [], _ :: _ => -1
  | _ :: _, [] => 1
  | a :: as, b :: bs =>
    if a.toNat < b.toNat then -1
    else if b.toNat < a.toNat then 1
    else strcmp as bs

/-- C `git__prefixcmp` (util.c collaborator): returns `0` iff `pfx` is a
prefix of `str`; only zero-ness is ever inspected by `refs.c`. -/
def git__prefixcmp (str pfx : List Char) : Int :=
  if pfx.isPrefixOf str then 0 else 1

/-- C `git__suffixcmp` (util.c collaborator): returns `0` iff `suf` is a
suffix of `str`; only zero-ness is ever inspected by `refs.c`. -/
def git__suffixcmp (str suf : List Char) : Int :=
  if str.reverse.take suf.length = suf.reverse then 0 else 1

/-- Modelled from the spec: filesystem path join (`git_buf_joinpath`), which
concatenates with exactly one `/` separator.  Repository paths end in `/`. -/
def joinpath (a b : List Char) : List Char :=
  match a.getLast? with
  | some '/' => a ++ b
  | some _ => a ++ '/' :: b
  | none => b

/-! ## Object identifiers -/

/-- Hex digits accepted when parsing an OID.  Modelled from the spec: an OID
is serialized as 40 lowercase hex characters. -/
def isHexL (c : Char) : Bool :=
  (decide ('0' ≤ c) && decide (c ≤ '9')) || (decide ('a' ≤ c) && decide (c ≤ 'f'))

def GIT_OID_HEXSZ : Nat := 40

/-- Modelled from the spec: `git_oid_fromstr` (oid.c collaborator) parses the
first 40 characters of the buffer as an OID; fails unless all 40 are hex.
OIDs are modelled by their canonical 40-character hex spelling. -/
def git_oid_fromstr (buf : List Char) : Option (List Char) :=
  let s := buf.take GIT_OID_HEXSZ
  if s.length == GIT_OID_HEXSZ && s.all isHexL then some s else none

/-! ## Constants from the headers (not under `src/`) -/

/-- Modelled from the spec: reference kind bits (`git2/types.h`). -/
def GIT_REF_OID : Nat := 1
def GIT_REF_SYMBOLIC : Nat := 2
def GIT_REF_PACKED : Nat := 4

def GIT_PACKREF_HAS_PEEL : Nat := 1
def GIT_PACKREF_WAS_LOOSE : Nat := 2

def GIT_HEAD_FILE : List Char := L "HEAD"
def GIT_MERGE_HEAD_FILE : List Char := L "MERGE_HEAD"
def GIT_FETCH_HEAD_FILE : List Char := L "FETCH_HEAD"
def GIT_REFS_DIR : List Char := L "refs/"
def GIT_REFS_TAGS_DIR : List Char := L "refs/tags/"
def GIT_SYMREF : List Char := L "ref: "
def GIT_FILELOCK_EXTENSION : List Char := L ".lock"
def GIT_PACKEDREFS_HEADER : List Char := L "# pack-refs with: peeled "
def GIT_OBJ_TAG : Nat := 4

/-- Modelled from the spec: the fixed name-length cap (`GIT_REFNAME_MAX`). -/
def GIT_REFNAME_MAX : Nat := 1024

def SIZE_T_MOD : Nat := 18446744073709551616

/-- `size_t` decrement with wraparound, for the single `out_size--` that the
source performs before checking the value. -/
def size_t_dec (n : Nat) : Nat := (n + (SIZE_T_MOD - 1)) % SIZE_T_MOD

/-! ## Name normalization (`normalize_name`, refs.c:1595) -/

/-- refs.c:1576 `is_valid_ref_char`.  The `(unsigned)ch <= ' '` test is on the
byte value, so bytes above `0x7f` count as valid. -/
def is_valid_ref_char (c : Char) : Bool :=
  if c.toNat ≤ 32 then false
  else match c with
  | '~' | '^' | ':' | '\\' | '?' | '[' | '*' => false
  | _ => true

/-- The adjacency conditions checked inside the normalization loop: `c` may
follow `p` in the output unless it forms `..`, `/.`, `@\x7b` or `//`. -/
def pairOk (p c : Char) : Bool :=
  !(c == '.' && (p == '.' || p == '/')) &&
  !(c == '{' && p == '@') &&
  !(c == '/' && p == '/')

/-- The copy loop of `normalize_name` (refs.c:1624-1656).  `acc` is the output
buffer accumulated in reverse (its head is the character at `buffer_out - 1`),
`s` is the remaining `out_size` budget, `sl` is `contains_a_slash`. -/
def norm_loop : List Char → List Char → Nat → Bool →
    Except Err (List Char × Nat × Bool)
  | [], acc, s, sl => .ok (acc, s, sl)
  | c :: rest, acc, s, sl =>
    if s = 0 then .ok (acc, 0, sl)
    else if !is_valid_ref_char c then .error .EINVALIDREFNAME
    else match acc with
      | prev :: _ =>
        if c == '.' && (prev == '.' || prev == '/') then .error .EINVALIDREFNAME
        else if c == '{' && prev == '@' then .error .EINVALIDREFNAME
        else if c == '/' && prev == '/' then norm_loop rest acc s sl
        else norm_loop rest (c :: acc) (s - 1) (sl || c == '/')
      | [] => norm_loop rest (c :: acc) (s - 1) (sl || c == '/')

/-- refs.c:1595 `normalize_name`.  Returns the normalized name.  The final
`refs/` check is translated literally: the C condition is
`is_oid_ref && !(git__prefixcmp(out, GIT_REFS_DIR) || strcmp(out, GIT_HEAD_FILE))`,
which errors only when `out` both starts with `refs/` and equals `HEAD`. -/
def normalize_name (out_size : Nat) (name : List Char) (is_oid_ref : Bool) :
    Except Err (List Char) :=
  let s0 := size_t_dec out_size
  match name.getLast? with
  | none => .error .EINVALIDREFNAME
  | some lastc =>
    if lastc == '.' || lastc == '/' then .error .EINVALIDREFNAME
    else match norm_loop name [] s0 false with
    | .error e => .error e
    | .ok (acc, sRem, sl) =>
      if sRem = 0 then .error .EINVALIDREFNAME
      else
        let out := acc.reverse
        if is_oid_ref && !sl &&
            !(name == GIT_HEAD_FILE) && !(name == GIT_MERGE_HEAD_FILE) &&
            !(name == GIT_FETCH_HEAD_FILE) then
          .error .EINVALIDREFNAME
        else if git__suffixcmp name GIT_FILELOCK_EXTENSION == 0 then
          .error .EINVALIDREFNAME
        else if is_oid_ref && git__prefixcmp out GIT_REFS_DIR == 0 &&
            strcmp out GIT_HEAD_FILE == 0 then
          .error .EINVALIDREFNAME
        else .ok out

/-- refs.c:1692 `git_reference__normalize_name`. -/
def git_reference__normalize_name (name : List Char) : Except Err (List Char) :=
  normalize_name GIT_REFNAME_MAX name false

/-- refs.c:1700 `git_reference__normalize_name_oid`. -/
def git_reference__normalize_name_oid (name : List Char) : Except Err (List Char) :=
  normalize_name GIT_REFNAME_MAX name true

/-! ## Data model -/

/-- The `target` union of `git_reference`, modelled as a sum.  `tnone` is the
zero-initialized state produced by `reference_alloc`'s `memset`. -/
inductive RefTarget where
  | tnone
  | oid (o : List Char)
  | symbolic (s : List Char)
deriving DecidableEq, Repr

/-- A `git_reference` handle (refs.h).  The owner back-pointer and the mtime
freshness field are not modelled: the filesystem is threaded explicitly and
every read is treated as fresh (`updated = 1`). -/
structure git_reference where
  name : List Char
  flags : Nat
  target : RefTarget
deriving DecidableEq, Repr

/-- A `struct packref` cache entry (refs.c:25).  `peel` is meaningful only
when `flags` has `GIT_PACKREF_HAS_PEEL`; the parser leaves it `[]`
(uninitialized in C). -/
structure Packref where
  oid : List Char
  peel : List Char
  flags : Nat
  name : List Char
deriving DecidableEq, Repr

/-- Modelled from the spec: an object-database record, as seen through the
collaborator interface (`exists`, `lookup`, `object_type`, `tag_target_oid`).
`tag_target` is meaningful only when `otype = GIT_OBJ_TAG`. -/
structure OdbObject where
  oid : List Char
  otype : Nat
  tag_target : List Char
deriving DecidableEq, Repr

/-- The repository state visible to `refs.c`: its path (ending in `/`), the
loose files on disk (full path to content), the `packed-refs` file content
(`none` when absent), and the object database. -/
structure Repository where
  path_repository : List Char
  files : List (List Char × List Char)
  packed : Option (List Char)
  odb : List OdbObject
deriving DecidableEq, Repr

def file_find (files : List (List Char × List Char)) (p : List Char) :
    Option (List Char) :=
  (files.find? (fun kv => kv.fst == p)).map (fun kv => kv.snd)

/-- Modelled from the spec: `git_path_isfile`; `0` when a file exists at the
path, negative otherwise. -/
def git_path_isfile (repo : Repository) (p : List Char) : Int :=
  if (file_find repo.files p).isSome then 0 else -1

/-- refs.c:116 `reference_read`: read the file at `repo_path/ref_name`.  The
read is always treated as updated (mtime freshness is not modelled). -/
def reference_read (repo : Repository) (ref_name : List Char) :
    Except Err (List Char) :=
  match file_find repo.files (joinpath repo.path_repository ref_name) with
  | some content => .ok content
  | none => .error .ENOTFOUND

/-! ## Loose store -/

/-- refs.c:132 `loose_parse_symbolic`: drop the `ref: ` header, cut at the
first newline, tolerating one `\r` before it.  When the newline is the very
first character of the target the C code's `eol[-1]` reads before the buffer;
that read never sees `\r` here. -/
def loose_parse_symbolic (content : List Char) : Except Err (List Char) :=
  if content.length < GIT_SYMREF.length + 1 then .error .EOBJCORRUPTED
  else
    let t := content.drop GIT_SYMREF.length
    let pre := t.takeWhile (fun c => !(c == '\n'))
    let suf := t.dropWhile (fun c => !(c == '\n'))
    if suf.isEmpty then .error .EOBJCORRUPTED
    else if pre.getLast? == some '\r' then .ok pre.dropLast
    else .ok pre

/-- refs.c:168 `loose_parse_oid`: 40 hex characters then newline, with an
optional `\r` tolerated before the `\n`. -/
def loose_parse_oid (content : List Char) : Except Err (List Char) :=
  if content.length < GIT_OID_HEXSZ + 1 then .error .EOBJCORRUPTED
  else match git_oid_fromstr content with
  | none => .error .EOBJCORRUPTED
  | some o =>
    let rest := content.drop GIT_OID_HEXSZ
    let rest2 := if rest.head? == some '\r' then rest.drop 1 else rest
    if rest2.head? == some '\n' then .ok o else .error .EOBJCORRUPTED

/-- refs.c:212 `loose_lookup`: read the loose file for `ref.name`; any read
failure becomes `ENOTFOUND`; the content is sniffed for the `ref: ` header
and parsed accordingly. -/
def loose_lookup (repo : Repository) (ref : git_reference) :
    Except Err git_reference :=
  match reference_read repo ref.name with
  | .error _ => .error .ENOTFOUND
  | .ok content =>
    if git__prefixcmp content GIT_SYMREF == 0 then
      match loose_parse_symbolic content with
      | .ok t => .ok { ref with flags := GIT_REF_SYMBOLIC, target := .symbolic t }
      | .error e => .error e
    else
      match loose_parse_oid content with
      | .ok o => .ok { ref with flags := GIT_REF_OID, target := .oid o }
      | .error e => .error e

/-- refs.c:285 `loose_write`: serialize the handle and atomically replace the
file at `repo_path/ref.name`; returns the updated loose-file map. -/
def loose_write (repo : Repository) (ref : git_reference) :
    Except Err Repository :=
  let path := joinpath repo.path_repository ref.name
  if ref.flags &&& GIT_REF_OID ≠ 0 then
    match ref.target with
    | .oid o =>
      .ok { repo with files :=
        (repo.files.filter (fun kv => !(kv.fst == path))) ++ [(path, o ++ ['\n'])] }
    | _ => .error .EOBJCORRUPTED
  else if ref.flags &&& GIT_REF_SYMBOLIC ≠ 0 then
    match ref.target with
    | .symbolic s =>
      .ok { repo with files :=
        (repo.files.filter (fun kv => !(kv.fst == path))) ++
          [(path, GIT_SYMREF ++ s ++ ['\n'])] }
    | _ => .error .EOBJCORRUPTED
  else .error .EOBJCORRUPTED

/-! ## Packed store: parsing (`packed_parse_oid`, `packed_parse_peel`,
`packed_load`) -/

/-- refs.c:372 `packed_parse_oid`: a ref line is 40 hex characters, a space,
the ref name and a newline (one `\r` tolerated before it).  On an invalid OID
the function rethrows `git_oid_fromstr`'s own code (`ENOTOID`), all other
failures are `EPACKEDREFSCORRUPTED`. -/
def packed_parse_oid (buf : List Char) : Except Err (Packref × List Char) :=
  if buf.length ≤ GIT_OID_HEXSZ + 1 then .error .EPACKEDREFSCORRUPTED
  else if !(buf[GIT_OID_HEXSZ]? == some ' ') then .error .EPACKEDREFSCORRUPTED
  else match git_oid_fromstr buf with
  | none => .error .ENOTOID
  | some o =>
    let after := buf.drop (GIT_OID_HEXSZ + 1)
    let pre := after.takeWhile (fun c => !(c == '\n'))
    let suf := after.dropWhile (fun c => !(c == '\n'))
    match suf with
    | [] => .error .EPACKEDREFSCORRUPTED
    | _ :: rest =>
      let nm := if pre.getLast? == some '\r' then pre.dropLast else pre
      .ok ({ oid := o, peel := [], flags := 0, name := nm }, rest)

/-- refs.c:331 `packed_parse_peel`: `buf` starts at the `^`.  The preceding
ref must be under `refs/tags/`; then 40 hex characters and a newline follow
(one `\r` tolerated).  The `tag_ref == NULL` branch of the C code is dead in
the load loop (a ref line always precedes) and is not modelled. -/
def packed_parse_peel (tag_ref : Packref) (buf : List Char) :
    Except Err (Packref × List Char) :=
  let b := buf.drop 1
  if !(git__prefixcmp tag_ref.name GIT_REFS_TAGS_DIR == 0) then
    .error .EPACKEDREFSCORRUPTED
  else if b.length ≤ GIT_OID_HEXSZ then .error .EPACKEDREFSCORRUPTED
  else match git_oid_fromstr b with
  | none => .error .EPACKEDREFSCORRUPTED
  | some p =>
    let b2 := b.drop GIT_OID_HEXSZ
    let b3 := if b2.head? == some '\r' then b2.drop 1 else b2
    if b3.head? == some '\n' then
      let r2 : Packref :=
        { tag_ref with
          peel := p
          flags := tag_ref.flags ||| GIT_PACKREF_HAS_PEEL }
      .ok (r2, b3.drop 1)
    else .error .EPACKEDREFSCORRUPTED

/-- Modelled from the spec: `git_hashtable_insert` keyed by the entry name;
keys are unique, a duplicate insertion replaces the old entry. -/
def ht_insert (l : List Packref) (r : Packref) : List Packref :=
  (l.filter (fun e => !(e.name == r.name))) ++ [r]

/-- The leading-comment loop of `packed_load` (refs.c:474-481): skip `#`
lines, each of which must be newline-terminated.  Fuel is an upper bound on
the number of iterations; callers pass `buf.length + 1` which always
suffices. -/
def skip_comments : Nat → List Char → Except Err (List Char)
  | 0, _ => .error .EPACKEDREFSCORRUPTED
  | fuel + 1, buf =>
    if buf.head? == some '#' then
      match buf.dropWhile (fun c => !(c == '\n')) with
      | [] => .error .EPACKEDREFSCORRUPTED
      | _ :: rest => skip_comments fuel rest
    else .ok buf

/-- The entry loop of `packed_load` (refs.c:483-501): parse a ref line, then
a peel line iff the next character is `^`, insert, repeat until the buffer is
exhausted.  Fuel as in `skip_comments`. -/
def packed_parse_entries : Nat → List Char → List Packref →
    Except Err (List Packref)
  | 0, _, _ => .error .EPACKEDREFSCORRUPTED
  | fuel + 1, buf, acc =>
    if buf.isEmpty then .ok acc
    else
      match packed_parse_oid buf with
      | .error e => .error e
      | .ok (ref, rest) =>
        match (if rest.head? == some '^' then packed_parse_peel ref rest
               else .ok (ref, rest)) with
        | .error e => .error e
        | .ok (ref2, rest2) => packed_parse_entries fuel rest2 (ht_insert acc ref2)

/-- refs.c:427 `packed_load`, parsing part: comments then entries. -/
def packed_load_parse (content : List Char) : Except Err (List Packref) :=
  match skip_comments (content.length + 1) content with
  | .error e => .error e
  | .ok b => packed_parse_entries (b.length + 1) b []

/-- refs.c:427 `packed_load` on a repository: an absent `packed-refs` file
clears the cache and succeeds; otherwise the file is parsed afresh (the
mtime fast path returns an identical cache and is not modelled). -/
def packed_load (repo : Repository) : Except Err (List Packref) :=
  match repo.packed with
  | none => .ok []
  | some content => packed_load_parse content

/-- The reference cache after `packed_load` runs: on a parse failure the C
code frees the hashtable and nulls the pointer (refs.c:506-508), leaving the
cache empty, modelled as `none`. -/
def refcache_after_load (packed : Option (List Char)) : Option (List Packref) :=
  match packed with
  | none => some []
  | some content =>
    match packed_load_parse content with
    | .ok es => some es
    | .error _ => none

/-! ## Unified lookup -/

/-- refs.c:923 `packed_lookup`: load the packed cache and look the handle's
name up in it.  The packed-handle mtime fast path is not modelled (the cache
is rebuilt deterministically from the same file). -/
def packed_lookup (repo : Repository) (ref : git_reference) :
    Except Err git_reference :=
  match packed_load repo with
  | .error e => .error e
  | .ok cache =>
    match cache.find? (fun e => e.name == ref.name) with
    | none => .error .ENOTFOUND
    | some e =>
      .ok { ref with flags := GIT_REF_OID ||| GIT_REF_PACKED, target := .oid e.oid }

/-- refs.c:955 `reference_lookup`: loose first; any result other than
`ENOTFOUND` (success or error) is returned as-is; otherwise packed, same
policy; `ENOTFOUND` only when both stores said `ENOTFOUND`. -/
def reference_lookup (repo : Repository) (ref : git_reference) :
    Except Err git_reference :=
  match loose_lookup repo ref with
  | .ok r => .ok r
  | .error e =>
    if e ≠ .ENOTFOUND then .error e
    else match packed_lookup repo ref with
    | .ok r => .ok r
    | .error e2 =>
      if e2 ≠ .ENOTFOUND then .error e2 else .error .ENOTFOUND

/-- refs.c:1048 `git_reference_lookup`: normalize (with `oid_ref = false`),
allocate a handle carrying the normalized name, then `reference_lookup`. -/
def git_reference_lookup (repo : Repository) (name : List Char) :
    Except Err git_reference :=
  match normalize_name GIT_REFNAME_MAX name false with
  | .error e => .error e
  | .ok nn =>
    reference_lookup repo { name := nn, flags := 0, target := .tnone }

/-- refs.c:898 `reference_exists`: load the packed cache, join the full
on-disk path, then report existence when a loose file exists at that path or
the cache lookup **of the joined path** (`ref_path.ptr`, not `ref_name`)
succeeds. -/
def reference_exists (repo : Repository) (ref_name : List Char) :
    Except Err Bool :=
  match packed_load repo with
  | .error e => .error e
  | .ok cache =>
    let ref_path := joinpath repo.path_repository ref_name
    if git_path_isfile repo ref_path == 0 ||
        (cache.find? (fun e => e.name == ref_path)).isSome then
      .ok true
    else .ok false

/-! ## Getters (refs.c:1069-1118) -/

/-- refs.c:1069 `git_reference_type`. -/
def git_reference_type (ref : git_reference) : Nat :=
  if ref.flags &&& GIT_REF_OID ≠ 0 then GIT_REF_OID
  else if ref.flags &&& GIT_REF_SYMBOLIC ≠ 0 then GIT_REF_SYMBOLIC
  else 0

/-- refs.c:1100 `git_reference_oid`: `NULL` (here `none`) unless the handle
carries `GIT_REF_OID`; otherwise the `target.oid` union member. -/
def git_reference_oid (ref : git_reference) : Option (List Char) :=
  if ref.flags &&& GIT_REF_OID = 0 then none
  else match ref.target with
  | .oid o => some o
  | _ => none

/-- refs.c:1110 `git_reference_target`: `NULL` (here `none`) unless the
handle carries `GIT_REF_SYMBOLIC`; otherwise the `target.symbolic` member. -/
def git_reference_target (ref : git_reference) : Option (List Char) :=
  if ref.flags &&& GIT_REF_SYMBOLIC = 0 then none
  else match ref.target with
  | .symbolic s => some s
  | _ => none

/-! ## Creation and update -/

/-- Modelled from the spec: `git_odb_exists` collaborator. -/
def git_odb_exists (odb : List OdbObject) (id : List Char) : Bool :=
  (odb.find? (fun o => o.oid == id)).isSome

/-- refs.c:1216 `git_reference_set_oid`: requires a direct handle, requires
the OID to exist in the object database, updates the in-memory target, and
rewrites the loose file. -/
def git_reference_set_oid (repo : Repository) (ref : git_reference)
    (id : List Char) : Except Err (git_reference × Repository) :=
  if ref.flags &&& GIT_REF_OID = 0 then .error .EINVALIDTYPE
  else if !git_odb_exists repo.odb id then .error .EINVALIDTARGET
  else
    let ref2 := { ref with target := .oid id }
    match loose_write repo ref2 with
    | .ok repo2 => .ok (ref2, repo2)
    | .error e => .error e

/-- refs.c:1164 `git_reference_create_oid`: normalize with `oid_ref = true`,
check existence of the **normalized** name, then allocate the handle with the
**raw** `name` argument (refs.c:1188) and write it through
`git_reference_set_oid`. -/
def git_reference_create_oid (repo : Repository) (name : List Char)
    (id : List Char) (force : Bool) : Except Err (git_reference × Repository) :=
  match normalize_name GIT_REFNAME_MAX name true with
  | .error e => .error e
  | .ok normalized =>
    match reference_exists repo normalized with
    | .error e => .error e
    | .ok exs =>
      if exs && !force then .error .EEXISTS
      else
        let ref : git_reference :=
          { name := name, flags := GIT_REF_OID, target := .tnone }
        git_reference_set_oid repo ref id

/-! ## Resolution (refs.c:1420 `git_reference_resolve`) -/

/-- The `ref->target.symbolic` union read performed by the resolve loop; for
a non-symbolic payload the C bits are garbage, modelled as the empty name
(which no lookup can ever find valid). -/
def targetSymD : RefTarget → List Char
  | .symbolic s => s
  | _ => []

/-- The bounded iteration of `git_reference_resolve` (refs.c:1437-1457):
up to `fuel` lookups of the current symbolic target; a direct result returns
immediately; exhausting the bound is the too-nested error (refs.c:1459,
`giterr_set` + `-1`). -/
def resolve_loop (repo : Repository) : Nat → git_reference →
    Except Err git_reference
  | 0, _ => .error .ETOONESTED
  | fuel + 1, r =>
    match git_reference_lookup repo (targetSymD r.target) with
    | .error e => .error e
    | .ok nr =>
      if nr.flags &&& GIT_REF_OID ≠ 0 then .ok nr
      else resolve_loop repo fuel nr

def MAX_NESTING_LEVEL : Nat := 5

/-- refs.c:1420 `git_reference_resolve`: a direct handle is refreshed by a
plain lookup; a symbolic handle is chased through at most
`MAX_NESTING_LEVEL` lookups. -/
def git_reference_resolve (repo : Repository) (ref : git_reference) :
    Except Err git_reference :=
  if ref.flags &&& GIT_REF_OID ≠ 0 then git_reference_lookup repo ref.name
  else resolve_loop repo MAX_NESTING_LEVEL ref

/-- Executable chain predicate: `chainToB repo k t o` states that starting
from a lookup of name `t` the symbolic chain reaches, within `k` lookups, a
direct reference carrying OID `o`. -/
def chainToB (repo : Repository) : Nat → List Char → List Char → Bool
  | 0, _, _ => false
  | k + 1, t, o =>
    match git_reference_lookup repo t with
    | .error _ => false
    | .ok r =>
      if r.flags &&& GIT_REF_OID ≠ 0 then decide (r.target = .oid o)
      else match r.target with
      | .symbolic t2 => chainToB repo k t2 o
      | _ => false

/-- Executable cycle/overflow predicate: `symStepsB repo n t` states that `n`
successive lookups starting from name `t` all succeed and all produce
symbolic references (as happens along any cycle, and along any chain longer
than `n`). -/
def symStepsB (repo : Repository) : Nat → List Char → Bool
  | 0, _ => true
  | k + 1, t =>
    match git_reference_lookup repo t with
    | .error _ => false
    | .ok r =>
      if r.flags &&& GIT_REF_OID ≠ 0 then false
      else match r.target with
      | .symbolic t2 => symStepsB repo k t2
      | _ => false

/-! ## Packer: sorting, serialization, compaction sweep -/

/-- refs.c:745 `packed_sort`, lifted to the ordering used by
`git_vector_sort`. -/
def pk_le (a b : Packref) : Bool := decide (strcmp a.name b.name ≤ 0)

/-- Ordered insertion used to model `git_vector_sort(qsort)`; with the unique
keys of the hashtable the sorted result is the same for any comparison
sort. -/
def sorted_insert (r : Packref) : List Packref → List Packref
  | [] => [r]
  | x :: xs => if pk_le r x then r :: x :: xs else x :: sorted_insert r xs

def vector_sort (l : List Packref) : List Packref :=
  l.foldr sorted_insert []

/-- refs.c:607 `packed_write_ref`: the ref line, followed by a peel line iff
the entry has `GIT_PACKREF_HAS_PEEL`. -/
def packed_write_ref (r : Packref) : List Char :=
  if r.flags &&& GIT_PACKREF_HAS_PEEL ≠ 0 then
    r.oid ++ ' ' :: r.name ++ '\n' :: '^' :: r.peel ++ ['\n']
  else
    r.oid ++ ' ' :: r.name ++ ['\n']

/-- refs.c:648 `packed_find_peel`: entries already peeled or outside
`refs/tags/` are returned unchanged; otherwise the object is looked up (a
missing object is `EOBJCORRUPTED`, refs.c:668) and an annotated tag's target
is cached into `peel`. -/
def packed_find_peel (odb : List OdbObject) (r : Packref) :
    Except Err Packref :=
  if r.flags &&& GIT_PACKREF_HAS_PEEL ≠ 0 then .ok r
  else if !(git__prefixcmp r.name GIT_REFS_TAGS_DIR == 0) then .ok r
  else match odb.find? (fun o => o.oid == r.oid) with
  | none => .error .EOBJCORRUPTED
  | some obj =>
    if obj.otype = GIT_OBJ_TAG then
      .ok { r with peel := obj.tag_target,
                   flags := r.flags ||| GIT_PACKREF_HAS_PEEL }
    else .ok r

/-- The entry loop of `packed_write` (refs.c:806-817): peel then serialize
each entry of the (sorted) packing list in order. -/
def packed_write_buf (odb : List OdbObject) : List Packref →
    Except Err (List Char)
  | [] => .ok []
  | r :: rest =>
    match packed_find_peel odb r with
    | .error _ => .error .EOBJCORRUPTED
    | .ok r2 =>
      match packed_write_buf odb rest with
      | .error e => .error e
      | .ok body => .ok (packed_write_ref r2 ++ body)

/-- The full serialized `packed-refs` produced by `packed_write`
(refs.c:756): header line then the sorted, peeled entries. -/
def packed_write_serialize (odb : List OdbObject) (entries : List Packref) :
    Except Err (List Char) :=
  match packed_write_buf odb (vector_sort entries) with
  | .error e => .error e
  | .ok body => .ok (GIT_PACKEDREFS_HEADER ++ '\n' :: body)

/-- The filesystem state over which the compaction sweep operates: which
loose files exist, which of them fail to unlink, and the committed
`packed-refs` content. -/
structure PackFs where
  loose : List (List Char)
  failUnlink : List (List Char)
  packedContent : Option (List Char)
deriving DecidableEq, Repr

/-- Observable filesystem events of `packed_write`, in order. -/
inductive FsEvent where
  | commitOk
  | unlink (p : List Char)
deriving DecidableEq, Repr

/-- The accumulated-error policy of `packed_remove_loose` (refs.c:726-728):
keep the first error seen and continue. -/
def keepErr (e : Except Err Unit) (e2 : Err) : Except Err Unit :=
  match e with
  | .ok _ => .error e2
  | .error e0 => .error e0

/-- refs.c:706 `packed_remove_loose`: for each packing-list entry that was
loose, unlink its file if it exists; an unlink failure is recorded but the
sweep continues; the first error is returned after the sweep completes. -/
def packed_remove_loose (path : List Char) (fs : PackFs)
    (err : Except Err Unit) : List Packref →
    Except Err Unit × PackFs × List FsEvent
  | [] => (err, fs, [])
  | r :: rest =>
    if r.flags &&& GIT_PACKREF_WAS_LOOSE = 0 then
      packed_remove_loose path fs err rest
    else
      let p := joinpath path r.name
      if p ∈ fs.loose then
        if p ∈ fs.failUnlink then
          packed_remove_loose path fs (keepErr err .EOSERR) rest
        else
          let rm := packed_remove_loose path
            { fs with loose := fs.loose.erase p } err rest
          (rm.1, rm.2.1, .unlink p :: rm.2.2)
      else packed_remove_loose path fs err rest

/-- refs.c:756 `packed_write`, with its filesystem effects: build and sort
the packing list, peel and serialize (any failure aborts with no commit and
no sweep); then commit (outcome `commit_result`, decided by the filebuf
collaborator); only on commit success does the unlink sweep over was-loose
entries run (refs.c:822-834). -/
def packed_write_fs (path : List Char) (entries : List Packref)
    (odb : List OdbObject) (commit_result : Except Err Unit) (fs : PackFs) :
    Except Err Unit × PackFs × List FsEvent :=
  let pl := vector_sort entries
  match packed_write_buf odb pl with
  | .error e => (.error e, fs, [])
  | .ok body =>
    match commit_result with
    | .ok _ =>
      let fs1 := { fs with
        packedContent := some (GIT_PACKEDREFS_HEADER ++ '\n' :: body) }
      let rm := packed_remove_loose path fs1 (.ok ()) pl
      (rm.1, rm.2.1, .commitOk :: rm.2.2)
    | .error e => (.error e, fs, [])

/-! ## Claim C1 -/

/-- C1: the claim states that the existence check returns true iff a loose
file exists at the normalized path or the freshly loaded packed cache
contains an entry whose key equals the ref name.  The code violates this:
`reference_exists` (refs.c:911-912) looks up `ref_path.ptr` — the joined
on-disk path — in a cache whose keys are bare ref names, so a ref present
only in the packed cache is reported absent.  Below, the packed cache
contains exactly one entry whose key equals the queried ref name, no loose
file exists, and the existence check still answers `false`. -/
theorem claim_C1_exists_packed_key_bug :
    packed_load
      { path_repository := L "g/", files := [],
        packed := some
          (L "1111111111111111111111111111111111111111 refs/heads/x\n"),
        odb := [] } =
      .ok [{ oid := L "1111111111111111111111111111111111111111", peel := [],
             flags := 0, name := L "refs/heads/x" }] ∧
    reference_exists
      { path_repository := L "g/", files := [],
        packed := some
          (L "1111111111111111111111111111111111111111 refs/heads/x\n"),
        odb := [] } (L "refs/heads/x") = .ok false :=
  ⟨rfl, rfl⟩

/-! ## Claim C2 -/

/-- C2: the claim states that with `oid_ref = true` a name containing `/`
must begin with `refs/` (or be one of the well-known roots) to be accepted.
The code violates this: the final check of `normalize_name` (refs.c:1683) is
`!(git__prefixcmp(out, "refs/") || strcmp(out, "HEAD"))`, which can never be
true, so the `refs/` prefix requirement is never enforced — its own comment
("name has to start with refs/") notwithstanding.  The name `foo/bar`
contains a slash, does not start with `refs/`, is none of
`HEAD`/`MERGE_HEAD`/`FETCH_HEAD`, and is accepted. -/
theorem claim_C2_oid_ref_prefix_unenforced :
    normalize_name GIT_REFNAME_MAX (L "foo/bar") true = .ok (L "foo/bar") :=
  rfl

/-! ## Claim C3 -/

/-- C3: the claim states that the handle returned by `create_oid` records
the normalized name.  The code violates this: `git_reference_create_oid`
normalizes into `normalized` but calls `reference_alloc(&ref, repo, name)`
with the raw input (refs.c:1188), so the handle — and the loose file it
writes — carry the raw name.  Below, `refs//heads//x` normalizes to
`refs/heads/x`, yet the created handle's name and the written file path keep
the duplicate slashes. -/
theorem claim_C3_create_oid_raw_name :
    normalize_name GIT_REFNAME_MAX (L "refs//heads//x") true =
      .ok (L "refs/heads/x") ∧
    git_reference_create_oid
      { path_repository := L "g/", files := [], packed := none,
        odb := [{ oid := L "aaaaaaaaaaaaaaaaaaaaaaaaaaaaaaaaaaaaaaaa",
                  otype := 1, tag_target := [] }] }
      (L "refs//heads//x")
      (L "aaaaaaaaaaaaaaaaaaaaaaaaaaaaaaaaaaaaaaaa") false =
      .ok ({ name := L "refs//heads//x", flags := GIT_REF_OID,
             target := .oid (L "aaaaaaaaaaaaaaaaaaaaaaaaaaaaaaaaaaaaaaaa") },
           { path_repository := L "g/",
             files := [(L "g/refs//heads//x",
               L "aaaaaaaaaaaaaaaaaaaaaaaaaaaaaaaaaaaaaaaa" ++ ['\n'])],
             packed := none,
             odb := [{ oid := L "aaaaaaaaaaaaaaaaaaaaaaaaaaaaaaaaaaaaaaaa",
                       otype := 1, tag_target := [] }] }) ∧
    L "refs//heads//x" ≠ L "refs/heads/x" :=
  ⟨rfl, rfl, by decide⟩

/-! ## Claim C10 -/

/-- C10: for every handle whose kind bits are consistent (the constructors in
refs.c never set both `GIT_REF_OID` and `GIT_REF_SYMBOLIC`), the OID getter
returns null unless the kind is direct, the symbolic-target getter returns
null unless the kind is symbolic, and each getter only ever surfaces the
payload of its own kind. -/
theorem claim_C10_getters_kind (ref : git_reference)
    (h : ¬(ref.flags &&& GIT_REF_OID ≠ 0 ∧ ref.flags &&& GIT_REF_SYMBOLIC ≠ 0)) :
    (git_reference_type ref ≠ GIT_REF_OID → git_reference_oid ref = none) ∧
    (git_reference_type ref ≠ GIT_REF_SYMBOLIC →
      git_reference_target ref = none) ∧
    (∀ o, git_reference_oid ref = some o →
      git_reference_type ref = GIT_REF_OID ∧ ref.target = .oid o) ∧
    (∀ s, git_reference_target ref = some s →
      git_reference_type ref = GIT_REF_SYMBOLIC ∧ ref.target = .symbolic s) := by
  obtain ⟨nm, fl, tgt⟩ := ref
  by_cases ho : fl &&& GIT_REF_OID = 0 <;>
    by_cases hs : fl &&& GIT_REF_SYMBOLIC = 0 <;>
    cases tgt <;>
    simp_all [git_reference_type, git_reference_oid, git_reference_target]

/-- Witness for C10 at a concrete symbolic handle. -/
theorem claim_C10_witness :
    git_reference_oid
      { name := L "HEAD", flags := 2, target := .symbolic (L "refs/heads/a") } =
      none :=
  (claim_C10_getters_kind
    { name := L "HEAD", flags := 2, target := .symbolic (L "refs/heads/a") }
    (by decide)).1 (by decide)

/-! ## Claim C4 -/

/-- If `c` is a hex digit and `d` is not, they are distinct. -/
theorem hex_not_char {c d : Char} (h : isHexL c = true)
    (hd : isHexL d = false) : (d == c) = false := by
  rcases Bool.eq_false_or_eq_true (d == c) with hb | hb
  · have hdc : d = c := eq_of_beq hb
    subst hdc
    rw [h] at hd
    exact Bool.noConfusion hd
  · exact hb

/-- A buffer starting with a hex digit cannot carry the `ref: ` header. -/
theorem symref_hex_head {c : Char} (rest : List Char) (h : isHexL c = true) :
    git__prefixcmp (c :: rest) GIT_SYMREF = 1 := by
  have hsym : GIT_SYMREF = 'r' :: L "ef: " := rfl
  have hr : isHexL 'r' = false := by decide
  unfold git__prefixcmp
  rw [hsym]
  simp [List.isPrefixOf, hex_not_char h hr]

/-- A well-formed direct loose file (40 hex digits then newline) parses to
its OID, updating the handle to a direct reference. -/
theorem loose_lookup_direct (repo : Repository) (ref : git_reference)
    (hex : List Char) (hlen : hex.length = 40) (hhex : hex.all isHexL = true)
    (hfile : file_find repo.files (joinpath repo.path_repository ref.name) =
      some (hex ++ ['\n'])) :
    loose_lookup repo ref =
      .ok { ref with flags := GIT_REF_OID, target := .oid hex } := by
  have hne : hex ≠ [] := by
    intro hnil; rw [hnil] at hlen; exact absurd hlen (by decide)
  obtain ⟨c, tl, rfl⟩ : ∃ c tl, hex = c :: tl := by
    cases hex with
    | nil => exact absurd rfl hne
    | cons c tl => exact ⟨c, tl, rfl⟩
  have hc : isHexL c = true := by
    have := List.all_eq_true.mp hhex c (by simp)
    exact this
  have hpc : git__prefixcmp (c :: (tl ++ ['\n'])) GIT_SYMREF = 1 :=
    symref_hex_head (tl ++ ['\n']) hc
  have hlen2 : (c :: (tl ++ ['\n'])).length = 41 := by
    simp at hlen ⊢
    omega
  have htake : (c :: (tl ++ ['\n'])).take GIT_OID_HEXSZ = c :: tl := by
    rw [show (c :: (tl ++ ['\n'])) = (c :: tl) ++ ['\n'] from rfl]
    exact List.take_left' hlen
  have hdrop : (c :: (tl ++ ['\n'])).drop GIT_OID_HEXSZ = ['\n'] := by
    rw [show (c :: (tl ++ ['\n'])) = (c :: tl) ++ ['\n'] from rfl]
    exact List.drop_left' hlen
  simp only [loose_lookup, reference_read, hfile, List.cons_append, hpc,
    loose_parse_oid, git_oid_fromstr, hlen2, htake, hdrop, hlen, hhex]
  norm_num [GIT_OID_HEXSZ]
  rw [if_pos (by decide)]

/-- C4: unified lookup consults the loose store first; a loose success is
returned as-is (so a well-formed loose file shadows any packed entry of the
same name, whatever the packed store holds); a loose error other than
not-found short-circuits; on loose not-found the packed result is returned
verbatim; and not-found surfaces exactly when both stores say not-found. -/
theorem claim_C4_lookup_two_store :
    (∀ repo ref r, loose_lookup repo ref = .ok r →
      reference_lookup repo ref = .ok r) ∧
    (∀ repo ref e, loose_lookup repo ref = .error e → e ≠ .ENOTFOUND →
      reference_lookup repo ref = .error e) ∧
    (∀ repo ref, loose_lookup repo ref = .error .ENOTFOUND →
      reference_lookup repo ref = packed_lookup repo ref) ∧
    (∀ repo ref, reference_lookup repo ref = .error .ENOTFOUND ↔
      (loose_lookup repo ref = .error .ENOTFOUND ∧
       packed_lookup repo ref = .error .ENOTFOUND)) ∧
    (∀ repo name hex, hex.length = 40 → hex.all isHexL = true →
      file_find repo.files (joinpath repo.path_repository name) =
        some (hex ++ ['\n']) →
      normalize_name GIT_REFNAME_MAX name false = .ok name →
      git_reference_lookup repo name =
        .ok { name := name, flags := GIT_REF_OID, target := .oid hex }) := by
  refine ⟨?_, ?_, ?_, ?_, ?_⟩
  · intro repo ref r h
    unfold reference_lookup
    rw [h]
  · intro repo ref e h hne
    unfold reference_lookup
    rw [h]
    simp [hne]
  · intro repo ref h
    unfold reference_lookup
    rw [h]
    simp only [ne_eq, not_true_eq_false, if_false]
    cases hp : packed_lookup repo ref with
    | ok r => rfl
    | error e2 =>
      by_cases he2 : e2 = Err.ENOTFOUND
      · subst he2; simp
      · simp [he2]
  · intro repo ref
    unfold reference_lookup
    cases hl : loose_lookup repo ref with
    | ok r => simp
    | error e =>
      by_cases he : e = Err.ENOTFOUND
      · subst he
        simp only [ne_eq, not_true_eq_false, if_false]
        cases hp : packed_lookup repo ref with
        | ok r => simp
        | error e2 =>
          by_cases he2 : e2 = Err.ENOTFOUND
          · subst he2; simp
          · simp [he2]
      · simp [he]
  · intro repo name hex hlen hhex hfile hnorm
    have hl := loose_lookup_direct repo
      { name := name, flags := 0, target := .tnone } hex hlen hhex hfile
    simp only [git_reference_lookup, hnorm, reference_lookup, hl]

/-- Witness for C4: shadowing at a concrete repository whose `packed-refs`
holds the same name with a different OID, plus the loose short-circuit and
exact-fallback conjuncts at the same repository. -/
theorem claim_C4_witness :
    reference_lookup
      { path_repository := L "g/",
        files := [(L "g/refs/heads/x",
          L "aaaaaaaaaaaaaaaaaaaaaaaaaaaaaaaaaaaaaaaa" ++ ['\n'])],
        packed := some
          (L "1111111111111111111111111111111111111111 refs/heads/x\n"),
        odb := [] }
      { name := L "refs/heads/x", flags := 0, target := .tnone } =
      .ok { name := L "refs/heads/x", flags := GIT_REF_OID,
            target := .oid (L "aaaaaaaaaaaaaaaaaaaaaaaaaaaaaaaaaaaaaaaa") } ∧
    git_reference_lookup
      { path_repository := L "g/",
        files := [(L "g/refs/heads/x",
          L "aaaaaaaaaaaaaaaaaaaaaaaaaaaaaaaaaaaaaaaa" ++ ['\n'])],
        packed := some
          (L "1111111111111111111111111111111111111111 refs/heads/x\n"),
        odb := [] }
      (L "refs/heads/x") =
      .ok { name := L "refs/heads/x", flags := GIT_REF_OID,
            target := .oid (L "aaaaaaaaaaaaaaaaaaaaaaaaaaaaaaaaaaaaaaaa") } ∧
    reference_lookup
      { path_repository := L "g/", files := [],
        packed := some
          (L "1111111111111111111111111111111111111111 refs/heads/x\n"),
        odb := [] }
      { name := L "refs/heads/x", flags := 0, target := .tnone } =
      packed_lookup
        { path_repository := L "g/", files := [],
          packed := some
            (L "1111111111111111111111111111111111111111 refs/heads/x\n"),
          odb := [] }
        { name := L "refs/heads/x", flags := 0, target := .tnone } :=
  ⟨claim_C4_lookup_two_store.1 _ _ _ rfl,
   claim_C4_lookup_two_store.2.2.2.2 _ _
     (L "aaaaaaaaaaaaaaaaaaaaaaaaaaaaaaaaaaaaaaaa") rfl rfl rfl rfl,
   claim_C4_lookup_two_store.2.2.1 _ _ rfl⟩

/-! ## Claim C5 -/

/-- If a symbolic chain reaches a direct reference within `k` lookups and the
loop has at least `k` iterations of fuel left, the loop returns that direct
reference. -/
theorem resolve_loop_chain (repo : Repository) :
    ∀ k fuel t o (r : git_reference), k ≤ fuel → chainToB repo k t o = true →
    r.target = .symbolic t →
    ∃ rr, resolve_loop repo fuel r = .ok rr ∧
      rr.flags &&& GIT_REF_OID ≠ 0 ∧ rr.target = .oid o := by
  intro k
  induction k with
  | zero =>
    intro fuel t o r _ hchain _
    exact absurd hchain (by simp [chainToB])
  | succ k ih =>
    intro fuel t o r hk hchain htgt
    cases fuel with
    | zero => exact absurd hk (by omega)
    | succ f =>
      unfold chainToB at hchain
      cases hlk : git_reference_lookup repo t with
      | error e => rw [hlk] at hchain; exact Bool.noConfusion hchain
      | ok r0 =>
        rw [hlk] at hchain
        unfold resolve_loop
        rw [htgt]
        unfold targetSymD
        rw [hlk]
        dsimp only at hchain ⊢
        by_cases hfl : r0.flags &&& GIT_REF_OID ≠ 0
        · rw [if_pos hfl] at hchain ⊢
          exact ⟨r0, rfl, hfl, of_decide_eq_true hchain⟩
        · rw [if_neg hfl] at hchain ⊢
          cases ht0 : r0.target with
          | tnone => rw [ht0] at hchain; exact Bool.noConfusion hchain
          | oid o2 => rw [ht0] at hchain; exact Bool.noConfusion hchain
          | symbolic t2 =>
            rw [ht0] at hchain
            exact ih f t2 o r0 (by omega) hchain ht0

/-- If `fuel` successive lookups starting from `t` all yield symbolic
references, the loop exhausts its fuel and reports too-nested. -/
theorem resolve_loop_toonested (repo : Repository) :
    ∀ fuel t (r : git_reference), symStepsB repo fuel t = true →
    r.target = .symbolic t →
    resolve_loop repo fuel r = .error .ETOONESTED := by
  intro fuel
  induction fuel with
  | zero => intro t r _ _; rfl
  | succ f ih =>
    intro t r hsym htgt
    unfold symStepsB at hsym
    cases hlk : git_reference_lookup repo t with
    | error e => rw [hlk] at hsym; exact Bool.noConfusion hsym
    | ok r0 =>
      rw [hlk] at hsym
      unfold resolve_loop
      rw [htgt]
      unfold targetSymD
      rw [hlk]
      dsimp only at hsym ⊢
      by_cases hfl : r0.flags &&& GIT_REF_OID ≠ 0
      · rw [if_pos hfl] at hsym; exact Bool.noConfusion hsym
      · rw [if_neg hfl] at hsym ⊢
        cases ht0 : r0.target with
        | tnone => rw [ht0] at hsym; exact Bool.noConfusion hsym
        | oid o2 => rw [ht0] at hsym; exact Bool.noConfusion hsym
        | symbolic t2 =>
          rw [ht0] at hsym
          exact ih t2 r0 hsym ht0

/-- C5: for a symbolic handle, if its chain reaches a direct reference
within `k ≤ MAX_NESTING_LEVEL = 5` lookups, `git_reference_resolve` returns
a direct handle carrying the terminal OID; if instead the first 5 lookups
all produce symbolic references — as along any chain longer than 5 and along
any cycle — resolve fails with the too-nested error. -/
theorem claim_C5_resolve_bound (repo : Repository) (ref : git_reference)
    (t : List Char) (hflag : ref.flags &&& GIT_REF_OID = 0)
    (htgt : ref.target = .symbolic t) :
    (∀ k o, k ≤ MAX_NESTING_LEVEL → chainToB repo k t o = true →
      ∃ r, git_reference_resolve repo ref = .ok r ∧
        r.flags &&& GIT_REF_OID ≠ 0 ∧ r.target = .oid o) ∧
    (symStepsB repo MAX_NESTING_LEVEL t = true →
      git_reference_resolve repo ref = .error .ETOONESTED) := by
  have hres : git_reference_resolve repo ref =
      resolve_loop repo MAX_NESTING_LEVEL ref := by
    unfold git_reference_resolve
    rw [if_neg (by simp [hflag])]
  constructor
  · intro k o hk hchain
    rw [hres]
    exact resolve_loop_chain repo k MAX_NESTING_LEVEL t o ref hk hchain htgt
  · intro hsym
    rw [hres]
    exact resolve_loop_toonested repo MAX_NESTING_LEVEL t ref hsym htgt

/-- Witness for C5: a one-hop chain `HEAD → refs/heads/a → OID` resolves to
the terminal OID, and the two-element cycle `l1 ↔ l2` is reported
too-nested. -/
theorem claim_C5_witness :
    (∃ r, git_reference_resolve
      { path_repository := L "g/",
        files := [(L "g/HEAD", L "ref: refs/heads/a" ++ ['\n']),
          (L "g/refs/heads/a",
            L "aaaaaaaaaaaaaaaaaaaaaaaaaaaaaaaaaaaaaaaa" ++ ['\n']),
          (L "g/refs/heads/l1", L "ref: refs/heads/l2" ++ ['\n']),
          (L "g/refs/heads/l2", L "ref: refs/heads/l1" ++ ['\n'])],
        packed := none, odb := [] }
      { name := L "HEAD", flags := GIT_REF_SYMBOLIC,
        target := .symbolic (L "refs/heads/a") } = .ok r ∧
      r.flags &&& GIT_REF_OID ≠ 0 ∧
      r.target = .oid (L "aaaaaaaaaaaaaaaaaaaaaaaaaaaaaaaaaaaaaaaa")) ∧
    git_reference_resolve
      { path_repository := L "g/",
        files := [(L "g/HEAD", L "ref: refs/heads/a" ++ ['\n']),
          (L "g/refs/heads/a",
            L "aaaaaaaaaaaaaaaaaaaaaaaaaaaaaaaaaaaaaaaa" ++ ['\n']),
          (L "g/refs/heads/l1", L "ref: refs/heads/l2" ++ ['\n']),
          (L "g/refs/heads/l2", L "ref: refs/heads/l1" ++ ['\n'])],
        packed := none, odb := [] }
      { name := L "refs/heads/l1", flags := GIT_REF_SYMBOLIC,
        target := .symbolic (L "refs/heads/l2") } = .error .ETOONESTED :=
  ⟨(claim_C5_resolve_bound _ _ _ (by decide) rfl).1 1
      (L "aaaaaaaaaaaaaaaaaaaaaaaaaaaaaaaaaaaaaaaa") (by decide) (by rfl),
   (claim_C5_resolve_bound _ _ _ (by decide) rfl).2 (by rfl)⟩

/-! ## Sorting facts shared by the packer claims -/

theorem sorted_insert_perm (r : Packref) :
    ∀ l, List.Perm (sorted_insert r l) (r :: l) := by
  intro l
  induction l with
  | nil => exact List.Perm.refl _
  | cons x xs ih =>
    unfold sorted_insert
    by_cases h : pk_le r x = true
    · rw [if_pos h]
    · rw [if_neg h]
      exact ((ih.cons x).trans (List.Perm.swap r x xs))

theorem vector_sort_perm : ∀ l, List.Perm (vector_sort l) l := by
  intro l
  induction l with
  | nil => exact List.Perm.refl _
  | cons x xs ih =>
    have : vector_sort (x :: xs) = sorted_insert x (vector_sort xs) := rfl
    rw [this]
    exact ((sorted_insert_perm x (vector_sort xs)).trans (ih.cons x))

/-! ## Claim C7 -/

/-- Every unlink event emitted by the removal sweep targets the loose file of
a packing-list entry carrying `GIT_PACKREF_WAS_LOOSE`. -/
theorem packed_remove_loose_events (path : List Char) :
    ∀ (l : List Packref) (fs : PackFs) (err : Except Err Unit) (p : List Char),
    FsEvent.unlink p ∈ (packed_remove_loose path fs err l).2.2 →
    ∃ r, r ∈ l ∧ r.flags &&& GIT_PACKREF_WAS_LOOSE ≠ 0 ∧
      p = joinpath path r.name := by
  intro l
  induction l with
  | nil => intro fs err p h; exact absurd h (by simp [packed_remove_loose])
  | cons r rest ih =>
    intro fs err p h
    unfold packed_remove_loose at h
    by_cases h1 : r.flags &&& GIT_PACKREF_WAS_LOOSE = 0
    · rw [if_pos h1] at h
      obtain ⟨r2, hr2, hfl, hp⟩ := ih fs err p h
      exact ⟨r2, List.mem_cons_of_mem r hr2, hfl, hp⟩
    · rw [if_neg h1] at h
      by_cases h2 : joinpath path r.name ∈ fs.loose
      · rw [if_pos h2] at h
        by_cases h3 : joinpath path r.name ∈ fs.failUnlink
        · rw [if_pos h3] at h
          obtain ⟨r2, hr2, hfl, hp⟩ := ih fs (keepErr err .EOSERR) p h
          exact ⟨r2, List.mem_cons_of_mem r hr2, hfl, hp⟩
        · rw [if_neg h3] at h
          simp only [List.mem_cons] at h
          rcases h with h | h
          · exact ⟨r, List.mem_cons_self r rest, h1, by injection h⟩
          · obtain ⟨r2, hr2, hfl, hp⟩ :=
              ih { fs with loose := fs.loose.erase (joinpath path r.name) }
                err p h
            exact ⟨r2, List.mem_cons_of_mem r hr2, hfl, hp⟩
      · rw [if_neg h2] at h
        obtain ⟨r2, hr2, hfl, hp⟩ := ih fs err p h
        exact ⟨r2, List.mem_cons_of_mem r hr2, hfl, hp⟩

/-- C7: in `packed_write`, unlinking of loose files happens only inside the
post-commit sweep.  If the commit fails, the filesystem is returned exactly
as it was (every loose file intact, the old `packed-refs` untouched), the
event trace is empty and an error is reported.  In every trace, any unlink
event is preceded by a successful commit event, and it targets the loose
file of a was-loose entry of the packing list. -/
theorem claim_C7_unlink_after_commit (path : List Char)
    (entries : List Packref) (odb : List OdbObject) (cr : Except Err Unit)
    (fs : PackFs) (r : Except Err Unit) (fs2 : PackFs) (tr : List FsEvent)
    (heq : packed_write_fs path entries odb cr fs = (r, fs2, tr)) :
    (∀ e, cr = .error e → fs2 = fs ∧ tr = [] ∧ ∃ e2, r = .error e2) ∧
    (∀ i p, tr.get? i = some (.unlink p) →
      ∃ j, j < i ∧ tr.get? j = some .commitOk) ∧
    (∀ p, FsEvent.unlink p ∈ tr →
      ∃ er, er ∈ entries ∧ er.flags &&& GIT_PACKREF_WAS_LOOSE ≠ 0 ∧
        p = joinpath path er.name) := by
  unfold packed_write_fs at heq
  dsimp only at heq
  cases hbuf : packed_write_buf odb (vector_sort entries) with
  | error e =>
    rw [hbuf] at heq
    dsimp only at heq
    injection heq with h1 h23
    injection h23 with h2 h3
    subst h1 h2 h3
    refine ⟨fun e' _ => ⟨rfl, rfl, e, rfl⟩, ?_, ?_⟩
    · intro i p h
      simp at h
    · intro p h
      simp at h
  | ok body =>
    rw [hbuf] at heq
    cases cr with
    | error e =>
      dsimp only at heq
      injection heq with h1 h23
      injection h23 with h2 h3
      subst h1 h2 h3
      refine ⟨fun e' _ => ⟨rfl, rfl, e, rfl⟩, ?_, ?_⟩
      · intro i p h
        simp at h
      · intro p h
        simp at h
    | ok u =>
      dsimp only at heq
      injection heq with h1 h23
      injection h23 with h2 h3
      subst h1 h2 h3
      refine ⟨fun e' h => Except.noConfusion h, ?_, ?_⟩
      · intro i p h
        cases i with
        | zero => simp at h
        | succ i2 => exact ⟨0, Nat.succ_pos i2, rfl⟩
      · intro p hp
        rcases List.mem_cons.mp hp with hp0 | hp1
        · exact FsEvent.noConfusion hp0
        · obtain ⟨er, hmem, hfl, hpath⟩ :=
            packed_remove_loose_events path (vector_sort entries) _ _ p hp1
          exact ⟨er, (vector_sort_perm entries).mem_iff.mp hmem, hfl, hpath⟩

/-- Witness for C7: one was-loose entry; on commit success the trace is a
commit followed by one unlink (so the unlink at index 1 is preceded by the
commit at index 0); on commit failure the filesystem is unchanged. -/
theorem claim_C7_witness :
    (∃ j, j < 1 ∧
      ([FsEvent.commitOk,
        FsEvent.unlink (L "g/refs/heads/a")] : List FsEvent).get? j =
        some FsEvent.commitOk) ∧
    ({ loose := [L "g/refs/heads/a"], failUnlink := [],
       packedContent := none } : PackFs) =
      { loose := [L "g/refs/heads/a"], failUnlink := [],
        packedContent := none } := by
  constructor
  · exact (claim_C7_unlink_after_commit (L "g/")
      [{ oid := L "aaaaaaaaaaaaaaaaaaaaaaaaaaaaaaaaaaaaaaaa", peel := [],
         flags := GIT_PACKREF_WAS_LOOSE, name := L "refs/heads/a" }]
      [] (.ok ())
      { loose := [L "g/refs/heads/a"], failUnlink := [], packedContent := none }
      _ _ _ rfl).2.1 1 (L "g/refs/heads/a") rfl
  · exact ((claim_C7_unlink_after_commit (L "g/")
      [{ oid := L "aaaaaaaaaaaaaaaaaaaaaaaaaaaaaaaaaaaaaaaa", peel := [],
         flags := GIT_PACKREF_WAS_LOOSE, name := L "refs/heads/a" }]
      [] (.error .EOSERR)
      { loose := [L "g/refs/heads/a"], failUnlink := [], packedContent := none }
      _ _ _ rfl).1 .EOSERR rfl).1

/-! ## Claim C8 -/

theorem char_eq_of_toNat_eq {a b : Char} (h : a.toNat = b.toNat) : a = b := by
  have h1 : Char.ofNat a.toNat = Char.ofNat b.toNat := congrArg Char.ofNat h
  rwa [Char.ofNat_toNat, Char.ofNat_toNat] at h1

theorem strcmp_eq_zero_iff : ∀ (a b : List Char), strcmp a b = 0 ↔ a = b := by
  intro a
  induction a with
  | nil => intro b; cases b <;> simp [strcmp]
  | cons x xs ih =>
    intro b
    cases b with
    | nil => simp [strcmp]
    | cons y ys =>
      unfold strcmp
      by_cases h1 : x.toNat < y.toNat
      · rw [if_pos h1]
        constructor
        · intro h; exact absurd h (by decide)
        · intro h
          injection h with hx _
          subst hx
          exact absurd h1 (lt_irrefl _)
      · rw [if_neg h1]
        by_cases h2 : y.toNat < x.toNat
        · rw [if_pos h2]
          constructor
          · intro h; exact absurd h (by decide)
          · intro h
            injection h with hx _
            subst hx
            exact absurd h2 (lt_irrefl _)
        · rw [if_neg h2]
          have hxy : x = y := char_eq_of_toNat_eq (Nat.le_antisymm
            (Nat.le_of_not_lt h2) (Nat.le_of_not_lt h1))
          subst hxy
          rw [ih ys]
          constructor
          · intro h; rw [h]
          · intro h; injection h

theorem strcmp_swap : ∀ (a b : List Char), strcmp b a = -strcmp a b := by
  intro a
  induction a with
  | nil => intro b; cases b <;> norm_num [strcmp]
  | cons x xs ih =>
    intro b
    cases b with
    | nil => norm_num [strcmp]
    | cons y ys =>
      unfold strcmp
      rcases Nat.lt_trichotomy x.toNat y.toNat with h | h | h
      · have hn : ¬ y.toNat < x.toNat := by omega
        simp only [if_pos h, if_neg hn]
        decide
      · have h1 : ¬ x.toNat < y.toNat := by omega
        have h2 : ¬ y.toNat < x.toNat := by omega
        simp only [if_neg h1, if_neg h2]
        exact ih ys
      · have hn : ¬ x.toNat < y.toNat := by omega
        simp only [if_pos h, if_neg hn]

theorem strcmp_trans : ∀ (a b c : List Char),
    strcmp a b ≤ 0 → strcmp b c ≤ 0 → strcmp a c ≤ 0 := by
  intro a
  induction a with
  | nil =>
    intro b c _ _
    cases c <;> norm_num [strcmp]
  | cons x xs ih =>
    intro b c h1 h2
    cases b with
    | nil => exact absurd h1 (by norm_num [strcmp])
    | cons y ys =>
      cases c with
      | nil => exact absurd h2 (by norm_num [strcmp])
      | cons z zs =>
        unfold strcmp at h1 h2 ⊢
        rcases Nat.lt_trichotomy x.toNat y.toNat with hxy | hxy | hxy
        · rcases Nat.lt_trichotomy y.toNat z.toNat with hyz | hyz | hyz
          · simp only [if_pos (Nat.lt_trans hxy hyz)]; decide
          · simp only [if_pos (show x.toNat < z.toNat by omega)]; decide
          · simp only [if_neg (show ¬ y.toNat < z.toNat by omega),
              if_pos hyz] at h2
            exact absurd h2 (by decide)
        · simp only [if_neg (show ¬ x.toNat < y.toNat by omega),
            if_neg (show ¬ y.toNat < x.toNat by omega)] at h1
          rcases Nat.lt_trichotomy y.toNat z.toNat with hyz | hyz | hyz
          · simp only [if_pos (show x.toNat < z.toNat by omega)]; decide
          · simp only [if_neg (show ¬ y.toNat < z.toNat by omega),
              if_neg (show ¬ z.toNat < y.toNat by omega)] at h2
            simp only [if_neg (show ¬ x.toNat < z.toNat by omega),
              if_neg (show ¬ z.toNat < x.toNat by omega)]
            exact ih ys zs h1 h2
          · simp only [if_neg (show ¬ y.toNat < z.toNat by omega),
              if_pos hyz] at h2
            exact absurd h2 (by decide)
        · simp only [if_neg (show ¬ x.toNat < y.toNat by omega),
            if_pos hxy] at h1
          exact absurd h1 (by decide)

theorem sorted_insert_pairwise (r : Packref) (l : List Packref)
    (h : List.Pairwise (fun a b => strcmp a.name b.name ≤ 0) l) :
    List.Pairwise (fun a b => strcmp a.name b.name ≤ 0) (sorted_insert r l) := by
  induction l with
  | nil => simp [sorted_insert]
  | cons x xs ih =>
    rw [List.pairwise_cons] at h
    obtain ⟨hx, hxs⟩ := h
    unfold sorted_insert
    by_cases hle : pk_le r x = true
    · rw [if_pos hle]
      have hrx : strcmp r.name x.name ≤ 0 := of_decide_eq_true hle
      refine List.Pairwise.cons ?_ (List.Pairwise.cons hx hxs)
      intro a ha
      rcases List.mem_cons.mp ha with rfl | ha2
      · exact hrx
      · exact strcmp_trans _ _ _ hrx (hx a ha2)
    · rw [if_neg hle]
      have hxr : strcmp x.name r.name ≤ 0 := by
        have hrx : ¬ strcmp r.name x.name ≤ 0 := fun hc => hle (decide_eq_true hc)
        have hsw := strcmp_swap r.name x.name
        omega
      refine List.Pairwise.cons ?_ (ih hxs)
      intro a ha
      have hmem := (sorted_insert_perm r xs).mem_iff.mp ha
      rcases List.mem_cons.mp hmem with rfl | ha2
      · exact hxr
      · exact hx a ha2

theorem vector_sort_pairwise (l : List Packref) :
    List.Pairwise (fun a b => strcmp a.name b.name ≤ 0) (vector_sort l) := by
  induction l with
  | nil => simp [vector_sort]
  | cons x xs ih => exact sorted_insert_pairwise x (vector_sort xs) ih

/-- C8: with the unique keys guaranteed by the cache hashtable, the packing
list written by `packed_write` is strictly sorted by name under byte-wise
(`strcmp`) comparison, and the serialized `packed-refs` content is a
function of the entry set alone: any reordering of the cache entries
produces byte-identical output. -/
theorem claim_C8_packed_write_sorted_det (entries : List Packref)
    (odb : List OdbObject)
    (hnd : List.Pairwise (fun a b => a.name ≠ b.name) entries) :
    List.Pairwise (fun a b => strcmp a.name b.name < 0)
      (vector_sort entries) ∧
    ∀ entries2, List.Perm entries entries2 →
      packed_write_serialize odb entries = packed_write_serialize odb entries2 := by
  have hsymm : Symmetric (fun a b : Packref => a.name ≠ b.name) :=
    fun x y hxy heq => hxy heq.symm
  have hsorted : ∀ l, List.Pairwise (fun a b : Packref => a.name ≠ b.name) l →
      List.Pairwise (fun a b => strcmp a.name b.name < 0) (vector_sort l) := by
    intro l hl
    have h1 := vector_sort_pairwise l
    have h2 : List.Pairwise (fun a b : Packref => a.name ≠ b.name)
        (vector_sort l) :=
      ((vector_sort_perm l).pairwise_iff (fun hxy heq => hxy heq.symm)).mpr hl
    exact (h1.and h2).imp (fun hab =>
      lt_of_le_of_ne hab.1 (fun h0 => hab.2 ((strcmp_eq_zero_iff _ _).mp h0)))
  have huniq : ∀ l2, List.Perm entries l2 →
      vector_sort entries = vector_sort l2 := by
    intro l2 hp
    have hnd2 : List.Pairwise (fun a b : Packref => a.name ≠ b.name) l2 :=
      (hp.pairwise_iff (fun hxy heq => hxy heq.symm)).mp hnd
    have hperm : List.Perm (vector_sort entries) (vector_sort l2) :=
      (vector_sort_perm entries).trans (hp.trans (vector_sort_perm l2).symm)
    haveI : IsAntisymm Packref (fun a b => strcmp a.name b.name < 0) := by
      constructor
      intro a b h1 h2
      exfalso
      have hsw := strcmp_swap a.name b.name
      omega
    exact List.eq_of_perm_of_sorted hperm (hsorted entries hnd) (hsorted l2 hnd2)
  refine ⟨hsorted entries hnd, fun l2 hp => ?_⟩
  unfold packed_write_serialize
  rw [huniq l2 hp]

/-- Witness for C8 at a concrete two-entry cache given in reverse order. -/
theorem claim_C8_witness :
    List.Pairwise (fun a b => strcmp a.name b.name < 0)
      (vector_sort
        [{ oid := L "bbbbbbbbbbbbbbbbbbbbbbbbbbbbbbbbbbbbbbbb", peel := [],
           flags := 0, name := L "refs/heads/b" },
         { oid := L "aaaaaaaaaaaaaaaaaaaaaaaaaaaaaaaaaaaaaaaa", peel := [],
           flags := 0, name := L "refs/heads/a" }]) ∧
    packed_write_serialize []
      [{ oid := L "bbbbbbbbbbbbbbbbbbbbbbbbbbbbbbbbbbbbbbbb", peel := [],
         flags := 0, name := L "refs/heads/b" },
       { oid := L "aaaaaaaaaaaaaaaaaaaaaaaaaaaaaaaaaaaaaaaa", peel := [],
         flags := 0, name := L "refs/heads/a" }] =
    packed_write_serialize []
      [{ oid := L "aaaaaaaaaaaaaaaaaaaaaaaaaaaaaaaaaaaaaaaa", peel := [],
         flags := 0, name := L "refs/heads/a" },
       { oid := L "bbbbbbbbbbbbbbbbbbbbbbbbbbbbbbbbbbbbbbbb", peel := [],
         flags := 0, name := L "refs/heads/b" }] :=
  ⟨(claim_C8_packed_write_sorted_det
      [{ oid := L "bbbbbbbbbbbbbbbbbbbbbbbbbbbbbbbbbbbbbbbb", peel := [],
         flags := 0, name := L "refs/heads/b" },
       { oid := L "aaaaaaaaaaaaaaaaaaaaaaaaaaaaaaaaaaaaaaaa", peel := [],
         flags := 0, name := L "refs/heads/a" }] [] (by decide)).1,
   (claim_C8_packed_write_sorted_det
      [{ oid := L "bbbbbbbbbbbbbbbbbbbbbbbbbbbbbbbbbbbbbbbb", peel := [],
         flags := 0, name := L "refs/heads/b" },
       { oid := L "aaaaaaaaaaaaaaaaaaaaaaaaaaaaaaaaaaaaaaaa", peel := [],
         flags := 0, name := L "refs/heads/a" }] [] (by decide)).2 _
     (List.Perm.swap _ _ _)⟩

/-! ## Claim C6 -/

theorem hex_not_char2 {c d : Char} (h : isHexL c = true)
    (hd : isHexL d = false) : (c == d) = false := by
  rcases Bool.eq_false_or_eq_true (c == d) with hb | hb
  · have hdc : c = d := eq_of_beq hb
    subst hdc
    rw [h] at hd
    exact Bool.noConfusion hd
  · exact hb

theorem takeWhile_append_of_all {p : Char → Bool} :
    ∀ (l : List Char) (x : Char) (r : List Char),
    (∀ c ∈ l, p c = true) → p x = false →
    List.takeWhile p (l ++ x :: r) = l := by
  intro l
  induction l with
  | nil =>
    intro x r _ hx
    simp [List.takeWhile, hx]
  | cons c cs ih =>
    intro x r hall hx
    have hc : p c = true := hall c (by simp)
    simp only [List.cons_append, List.takeWhile, hc]
    exact congrArg (fun t => c :: t)
      (ih x r (fun d hd => hall d (by simp [hd])) hx)

theorem dropWhile_append_of_all {p : Char → Bool} :
    ∀ (l : List Char) (x : Char) (r : List Char),
    (∀ c ∈ l, p c = true) → p x = false →
    List.dropWhile p (l ++ x :: r) = x :: r := by
  intro l
  induction l with
  | nil =>
    intro x r _ hx
    simp [List.dropWhile, hx]
  | cons c cs ih =>
    intro x r hall hx
    have hc : p c = true := hall c (by simp)
    simp only [List.cons_append, List.dropWhile, hc]
    exact ih x r (fun d hd => hall d (by simp [hd])) hx

theorem git_oid_fromstr_append (hex rest : List Char) (hlen : hex.length = 40)
    (hall : hex.all isHexL = true) :
    git_oid_fromstr (hex ++ rest) = some hex := by
  unfold git_oid_fromstr GIT_OID_HEXSZ
  rw [List.take_left' hlen]
  simp [hlen, hall]

/-- A well-formed packed ref line parses to the entry it denotes, with an
empty (zero) flag byte, leaving the remainder of the buffer. -/
theorem packed_parse_oid_line (hex nm rest : List Char)
    (hlen : hex.length = 40) (hall : hex.all isHexL = true)
    (hnl : '\n' ∉ nm) (hcr : nm.getLast? ≠ some '\r') :
    packed_parse_oid (hex ++ (' ' :: (nm ++ ('\n' :: rest)))) =
      .ok ({ oid := hex, peel := [], flags := 0, name := nm }, rest) := by
  have hlenbuf : (hex ++ (' ' :: (nm ++ ('\n' :: rest)))).length =
      42 + nm.length + rest.length := by
    simp [hlen]
    omega
  have hget : (hex ++ (' ' :: (nm ++ ('\n' :: rest))))[GIT_OID_HEXSZ]? =
      some ' ' := by
    rw [List.getElem?_append_right
      (show hex.length ≤ GIT_OID_HEXSZ from le_of_eq hlen)]
    rw [hlen]
    simp [GIT_OID_HEXSZ]
  have hdrop : (hex ++ (' ' :: (nm ++ ('\n' :: rest)))).drop
      (GIT_OID_HEXSZ + 1) = nm ++ ('\n' :: rest) := by
    rw [← List.drop_drop 1 GIT_OID_HEXSZ]
    rw [List.drop_left' (show hex.length = GIT_OID_HEXSZ from hlen)]
    rfl
  have hallnm : ∀ c ∈ nm, (!(c == '\n')) = true := by
    intro c hc
    have : c ≠ '\n' := fun heq => hnl (heq ▸ hc)
    simp [this]
  have htw : List.takeWhile (fun c => !(c == '\n')) (nm ++ ('\n' :: rest)) =
      nm :=
    takeWhile_append_of_all nm '\n' rest hallnm (by decide)
  have hdw : List.dropWhile (fun c => !(c == '\n')) (nm ++ ('\n' :: rest)) =
      '\n' :: rest :=
    dropWhile_append_of_all nm '\n' rest hallnm (by decide)
  have hcrb : (nm.getLast? == some '\x0d') = false := by
    rcases Bool.eq_false_or_eq_true (nm.getLast? == some '\x0d') with hb | hb
    · exact absurd (eq_of_beq hb) hcr
    · exact hb
  unfold packed_parse_oid
  rw [if_neg (by rw [hlenbuf]; unfold GIT_OID_HEXSZ; omega)]
  rw [hget]
  rw [if_neg (by decide)]
  rw [git_oid_fromstr_append hex _ hlen hall]
  dsimp only
  rw [hdrop, htw, hdw, hcrb]
  rfl

/-- `packed_parse_oid` always produces an entry with a zero flag byte. -/
theorem packed_parse_oid_flags (buf : List Char) (pr : Packref × List Char)
    (h : packed_parse_oid buf = .ok pr) : pr.1.flags = 0 := by
  unfold packed_parse_oid at h
  split at h
  · exact Except.noConfusion h
  · split at h
    · exact Except.noConfusion h
    · cases hfs : git_oid_fromstr buf with
      | none => rw [hfs] at h; exact Except.noConfusion h
      | some o =>
        rw [hfs] at h
        dsimp only at h
        split at h
        · exact Except.noConfusion h
        · injection h with h2
          rw [← h2]

/-- `packed_parse_peel` succeeds only on entries named under `refs/tags/`,
and preserves the entry name. -/
theorem packed_parse_peel_tags (tag_ref : Packref) (buf : List Char)
    (pr : Packref × List Char) (h : packed_parse_peel tag_ref buf = .ok pr) :
    git__prefixcmp pr.1.name GIT_REFS_TAGS_DIR = 0 := by
  unfold packed_parse_peel at h
  dsimp only at h
  split at h
  · exact Except.noConfusion h
  · next hcond =>
    have hpfx : git__prefixcmp tag_ref.name GIT_REFS_TAGS_DIR = 0 := by
      rcases Bool.eq_false_or_eq_true
          (git__prefixcmp tag_ref.name GIT_REFS_TAGS_DIR == 0) with hb | hb
      · exact eq_of_beq hb
      · exact absurd (by rw [hb]; rfl) hcond
    split at h
    · exact Except.noConfusion h
    · cases hfs : git_oid_fromstr (List.drop 1 buf) with
      | none => rw [hfs] at h; exact Except.noConfusion h
      | some p =>
        rw [hfs] at h
        dsimp only at h
        by_cases hcr : ((List.drop GIT_OID_HEXSZ (List.drop 1 buf)).head? ==
            some '\x0d') = true
        · rw [if_pos hcr] at h
          split at h
          · injection h with h2
            rw [← h2]
            exact hpfx
          · exact Except.noConfusion h
        · rw [if_neg hcr] at h
          split at h
          · injection h with h2
            rw [← h2]
            exact hpfx
          · exact Except.noConfusion h

/-- Along the entry loop, every entry that carries `GIT_PACKREF_HAS_PEEL`
got it from a peel line whose tag check succeeded. -/
theorem parse_entries_peeled_tags :
    ∀ (fuel : Nat) (buf : List Char) (acc entries : List Packref),
    packed_parse_entries fuel buf acc = .ok entries →
    (∀ e ∈ acc, e.flags &&& GIT_PACKREF_HAS_PEEL ≠ 0 →
      git__prefixcmp e.name GIT_REFS_TAGS_DIR = 0) →
    ∀ e ∈ entries, e.flags &&& GIT_PACKREF_HAS_PEEL ≠ 0 →
      git__prefixcmp e.name GIT_REFS_TAGS_DIR = 0 := by
  intro fuel
  induction fuel with
  | zero =>
    intro buf acc entries h _
    exact Except.noConfusion h
  | succ f ih =>
    intro buf acc entries h hacc
    unfold packed_parse_entries at h
    cases buf with
    | nil =>
      rw [if_pos (show ([] : List Char).isEmpty = true from rfl)] at h
      injection h with h2
      rw [← h2]
      exact hacc
    | cons b bs =>
      rw [if_neg (fun hh => Bool.noConfusion hh)] at h
      cases hpo : packed_parse_oid (b :: bs) with
      | error e => rw [hpo] at h; exact Except.noConfusion h
      | ok pr =>
        rw [hpo] at h
        dsimp only at h
        have hinsert : ∀ (r2 : Packref),
            (r2.flags &&& GIT_PACKREF_HAS_PEEL ≠ 0 →
              git__prefixcmp r2.name GIT_REFS_TAGS_DIR = 0) →
            ∀ e ∈ ht_insert acc r2, e.flags &&& GIT_PACKREF_HAS_PEEL ≠ 0 →
              git__prefixcmp e.name GIT_REFS_TAGS_DIR = 0 := by
          intro r2 hr2 e he
          rcases List.mem_append.mp he with he1 | he2
          · exact hacc e (List.mem_of_mem_filter he1)
          · rw [List.mem_singleton.mp he2]
            exact hr2
        by_cases hcaret : (pr.2.head? == some '^') = true
        · rw [if_pos hcaret] at h
          cases hpp : packed_parse_peel pr.1 pr.2 with
          | error e => rw [hpp] at h; exact Except.noConfusion h
          | ok pr2 =>
            rw [hpp] at h
            dsimp only at h
            exact ih pr2.2 (ht_insert acc pr2.1) entries h
              (hinsert pr2.1 (fun _ => packed_parse_peel_tags pr.1 pr.2 pr2 hpp))
        · rw [if_neg hcaret] at h
          dsimp only at h
          exact ih pr.2 (ht_insert acc pr.1) entries h
            (hinsert pr.1 (fun hfl =>
              absurd (packed_parse_oid_flags (b :: bs) pr hpo)
                (by intro h0; rw [h0] at hfl; exact hfl rfl)))

/-- The comment loop leaves a buffer that does not start with `#` alone. -/
theorem skip_comments_head (f : Nat) (buf : List Char) (c : Char)
    (hhead : buf.head? = some c) (hc : (c == '#') = false) :
    skip_comments (f + 1) buf = .ok buf := by
  unfold skip_comments
  rw [hhead]
  rw [show ((some c == some '#')) = (c == '#') from rfl, hc]
  rfl

/-- A peel line whose preceding entry is not under `refs/tags/` is rejected
(refs.c:347). -/
theorem packed_parse_peel_nontag (tag_ref : Packref) (buf : List Char)
    (hpfx : ¬ git__prefixcmp tag_ref.name GIT_REFS_TAGS_DIR = 0) :
    packed_parse_peel tag_ref buf = .error .EPACKEDREFSCORRUPTED := by
  have h1 : git__prefixcmp tag_ref.name GIT_REFS_TAGS_DIR = 1 := by
    by_cases hp : GIT_REFS_TAGS_DIR.isPrefixOf tag_ref.name
    · exact absurd (by unfold git__prefixcmp; rw [if_pos hp]) hpfx
    · unfold git__prefixcmp; rw [if_neg hp]
  unfold packed_parse_peel
  dsimp only
  rw [if_pos (by rw [h1]; decide)]

/-- C6: (i) whenever `packed_load` parses a `packed-refs` file successfully,
every entry carrying a peel is named under `refs/tags/`; (ii) a buffer whose
first ref line names a non-tag ref and is followed by a `^` peel line makes
`packed_load` fail with the packed-refs-corrupt error and leaves the cache
empty; (iii) the same holds when a well-formed peel line is the first entry
of the file. -/
theorem claim_C6_peel_only_after_tag :
    (∀ content entries, packed_load_parse content = .ok entries →
      ∀ e ∈ entries, e.flags &&& GIT_PACKREF_HAS_PEEL ≠ 0 →
        git__prefixcmp e.name GIT_REFS_TAGS_DIR = 0) ∧
    (∀ hex nm rest, hex.length = 40 → hex.all isHexL = true →
      '\n' ∉ nm → nm.getLast? ≠ some '\r' →
      ¬ git__prefixcmp nm GIT_REFS_TAGS_DIR = 0 →
      packed_load_parse (hex ++ (' ' :: (nm ++ ('\n' :: ('^' :: rest))))) =
        .error .EPACKEDREFSCORRUPTED ∧
      refcache_after_load
        (some (hex ++ (' ' :: (nm ++ ('\n' :: ('^' :: rest)))))) = none) ∧
    (∀ hex rest, hex.length = 40 → hex.all isHexL = true →
      packed_load_parse ('^' :: (hex ++ ('\n' :: rest))) =
        .error .EPACKEDREFSCORRUPTED ∧
      refcache_after_load (some ('^' :: (hex ++ ('\n' :: rest)))) = none) := by
  refine ⟨?_, ?_, ?_⟩
  · intro content entries h
    unfold packed_load_parse at h
    cases hsk : skip_comments (content.length + 1) content with
    | error e => rw [hsk] at h; exact Except.noConfusion h
    | ok b =>
      rw [hsk] at h
      exact parse_entries_peeled_tags (b.length + 1) b [] entries h
        (by intro e he; exact absurd he (List.not_mem_nil e))
  · intro hex nm rest hlen hall hnl hcr hpfx
    obtain ⟨hc, htl, rfl⟩ : ∃ hc htl, hex = hc :: htl := by
      cases hex with
      | nil => exact absurd hlen (by decide)
      | cons hc htl => exact ⟨hc, htl, rfl⟩
    have hhex0 : isHexL hc = true := List.all_eq_true.mp hall hc (by simp)
    have hmain : packed_load_parse
        ((hc :: htl) ++ (' ' :: (nm ++ ('\n' :: ('^' :: rest))))) =
        .error .EPACKEDREFSCORRUPTED := by
      unfold packed_load_parse
      rw [skip_comments_head _ _ hc (by rw [List.cons_append]; rfl)
        (hex_not_char2 hhex0 (by decide))]
      unfold packed_parse_entries
      rw [if_neg (by rw [List.cons_append]; exact fun hh => Bool.noConfusion hh)]
      rw [packed_parse_oid_line (hc :: htl) nm ('^' :: rest) hlen hall hnl hcr]
      dsimp only
      rw [if_pos (show ((('^' :: rest).head? == some '^')) = true from rfl)]
      rw [packed_parse_peel_nontag _ _ hpfx]
    refine ⟨hmain, ?_⟩
    unfold refcache_after_load
    dsimp only
    rw [hmain]
  · intro hex rest hlen hall
    have h39 : hex[39]? = some hex[39] :=
      List.getElem?_eq_getElem (by omega)
    have hhex39 : isHexL (hex[39]) = true :=
      List.all_eq_true.mp hall _ (List.getElem_mem (by omega))
    have hget : ('^' :: (hex ++ ('\n' :: rest)))[GIT_OID_HEXSZ]? =
        some (hex[39]) := by
      rw [show (GIT_OID_HEXSZ : Nat) = 39 + 1 from rfl]
      rw [List.getElem?_cons_succ]
      rw [List.getElem?_append]
      rw [if_pos (by omega)]
      exact h39
    have hmain : packed_load_parse ('^' :: (hex ++ ('\n' :: rest))) =
        .error .EPACKEDREFSCORRUPTED := by
      unfold packed_load_parse
      rw [skip_comments_head _ ('^' :: (hex ++ ('\n' :: rest))) '^' rfl
        (by decide)]
      unfold packed_parse_entries
      rw [if_neg (fun hh => Bool.noConfusion hh)]
      have hpo : packed_parse_oid ('^' :: (hex ++ ('\n' :: rest))) =
          .error .EPACKEDREFSCORRUPTED := by
        unfold packed_parse_oid
        rw [if_neg (by
          simp only [List.length_cons, List.length_append, hlen]
          unfold GIT_OID_HEXSZ
          omega)]
        rw [hget]
        rw [show ((some (hex[39]) == some ' ')) = (hex[39] == ' ') from rfl]
        rw [hex_not_char2 hhex39 (by decide)]
        rfl
      rw [hpo]
    refine ⟨hmain, ?_⟩
    unfold refcache_after_load
    dsimp only
    rw [hmain]

/-- Witness for C6 at a concrete corrupt file (spec scenario 6: a peel line
after a `refs/heads/` entry) and a concrete peel-line-first file. -/
theorem claim_C6_witness :
    (packed_load_parse
      (L "1111111111111111111111111111111111111111" ++
        (' ' :: (L "refs/heads/dev" ++
          ('\n' :: ('^' :: L "3333333333333333333333333333333333333333\n"))))) =
      .error .EPACKEDREFSCORRUPTED ∧
    refcache_after_load
      (some (L "1111111111111111111111111111111111111111" ++
        (' ' :: (L "refs/heads/dev" ++
          ('\n' :: ('^' :: L "3333333333333333333333333333333333333333\n")))))) =
      none) ∧
    (packed_load_parse
      ('^' :: (L "3333333333333333333333333333333333333333" ++
        ('\n' :: []))) = .error .EPACKEDREFSCORRUPTED ∧
    refcache_after_load
      (some ('^' :: (L "3333333333333333333333333333333333333333" ++
        ('\n' :: [])))) = none) :=
  ⟨claim_C6_peel_only_after_tag.2.1
      (L "1111111111111111111111111111111111111111") (L "refs/heads/dev")
      (L "3333333333333333333333333333333333333333\n")
      rfl rfl (by decide) (by decide) (by decide),
   claim_C6_peel_only_after_tag.2.2
      (L "3333333333333333333333333333333333333333") [] rfl rfl⟩

/-! ## Claim C9: normalize idempotence.

The copy loop of `normalize_name` is characterized by the pure function
`collapse` (drop a `/` exactly when the previously copied character was `/`);
a successful run produces a `collapse`d output whose characters are valid and
whose adjacent pairs satisfy `pairOk`, and on such strings the loop copies
verbatim. -/

/-- The slash-collapsing function computed by the copy loop.  `q` is the
character most recently written to the output (`buffer_out[-1]`). -/
def collapse : Option Char → List Char → List Char
  | _, [] => []
  | q, c :: rest =>
    if (c == '/') && (q == some '/') then collapse q rest
    else c :: collapse (some c) rest

/-- `chainFromOk q l`: all adjacent pairs of `l`, preceded by `q`, satisfy
`pairOk`. -/
def chainFromOk : Option Char → List Char → Bool
  | _, [] => true
  | none, c :: rest => chainFromOk (some c) rest
  | some p, c :: rest => pairOk p c && chainFromOk (some c) rest

/-- `chainRevOk acc`: adjacent-pair condition on a reversed output buffer
(whose head is the most recently written character). -/
def chainRevOk : List Char → Bool
  | [] => true
  | [_] => true
  | c :: p :: rest => pairOk p c && chainRevOk (p :: rest)

def validAll (l : List Char) : Bool := l.all is_valid_ref_char

def slashIn (l : List Char) : Bool := l.any (fun c => c == '/')

/-- The previous character seen after processing `xs` starting from `q`. -/
def lastD (q : Option Char) (xs : List Char) : Option Char :=
  match xs.getLast? with
  | some x => some x
  | none => q

def pairOkOpt : Option Char → Char → Bool
  | none, _ => true
  | some p, c => pairOk p c

theorem collapse_cons_copy (q : Option Char) (c : Char) (rest : List Char)
    (hcond : ((c == '/') && (q == some '/')) = false) :
    collapse q (c :: rest) = c :: collapse (some c) rest := by
  simp only [collapse]
  rw [if_neg (by rw [hcond]; exact fun hh => Bool.noConfusion hh)]

theorem collapse_cons_skip (q : Option Char) (c : Char) (rest : List Char)
    (hcond : ((c == '/') && (q == some '/')) = true) :
    collapse q (c :: rest) = collapse q rest := by
  simp only [collapse]
  rw [if_pos hcond]

theorem collapse_none_cons (c : Char) (rest : List Char) :
    collapse none (c :: rest) = c :: collapse (some c) rest :=
  collapse_cons_copy none c rest (by simp)

/-- A collapse never removes a non-slash final character. -/
theorem collapse_getLast :
    ∀ (cur : List Char) (q : Option Char) (c : Char),
    cur.getLast? = some c → (c == '/') = false →
    (collapse q cur).getLast? = some c := by
  intro cur
  induction cur with
  | nil => intro q c hlast _; exact Option.noConfusion hlast
  | cons a rest ih =>
    intro q c hlast hslash
    cases rest with
    | nil =>
      have hac : a = c := by
        have : (a :: ([] : List Char)).getLast? = some a := rfl
        rw [this] at hlast
        injection hlast
      subst hac
      rw [collapse_cons_copy q a [] (by rw [hslash]; rfl)]
      rfl
    | cons b bs =>
      have hlast2 : (b :: bs).getLast? = some c := by
        rw [← List.getLast?_cons_cons]
        exact hlast
      by_cases hcond : ((a == '/') && (q == some '/')) = true
      · rw [collapse_cons_skip q a (b :: bs) hcond]
        exact ih q c hlast2 hslash
      · rw [collapse_cons_copy q a (b :: bs) (Bool.eq_false_iff.mpr hcond)]
        have hrec := ih (some a) c hlast2 hslash
        cases hc2 : collapse (some a) (b :: bs) with
        | nil => rw [hc2] at hrec; exact Option.noConfusion hrec
        | cons x xs =>
          rw [hc2] at hrec
          rw [List.getLast?_cons_cons]
          exact hrec

/-- A slash-free string is left unchanged by `collapse`. -/
theorem collapse_no_slash_id :
    ∀ (cur : List Char) (q : Option Char), slashIn cur = false →
    collapse q cur = cur := by
  intro cur
  induction cur with
  | nil => intro q _; rfl
  | cons c rest ih =>
    intro q hsl
    have hc : (c == '/') = false := by
      unfold slashIn at hsl
      rw [List.any_cons] at hsl
      exact (Bool.or_eq_false_iff.mp hsl).1
    have hrest : slashIn rest = false := by
      unfold slashIn at hsl ⊢
      rw [List.any_cons] at hsl
      exact (Bool.or_eq_false_iff.mp hsl).2
    rw [collapse_cons_copy q c rest (by rw [hc]; rfl)]
    rw [ih (some c) hrest]

/-- When the previous output character is not a slash, collapsing preserves
the presence of a slash. -/
theorem collapse_keeps_slash :
    ∀ (cur : List Char) (q : Option Char), (q == some '/') = false →
    slashIn cur = true → slashIn (collapse q cur) = true := by
  intro cur
  induction cur with
  | nil => intro q _ hsl; exact Bool.noConfusion hsl
  | cons c rest ih =>
    intro q hq hsl
    by_cases hc : (c == '/') = true
    · rw [collapse_cons_copy q c rest (by rw [hq, Bool.and_false])]
      unfold slashIn
      rw [List.any_cons, hc]
      rfl
    · have hcf : (c == '/') = false := Bool.eq_false_iff.mpr hc
      have hrest : slashIn rest = true := by
        unfold slashIn at hsl
        rw [List.any_cons, hcf, Bool.false_or] at hsl
        exact hsl
      rw [collapse_cons_copy q c rest (by rw [hcf]; rfl)]
      unfold slashIn
      rw [List.any_cons]
      have := ih (some c) (by rw [show ((some c == some '/')) = (c == '/') from
        rfl, hcf]) hrest
      unfold slashIn at this
      rw [this, Bool.or_true]

/-- A slash-free suffix of a collapsed string is a suffix of the original. -/
theorem collapse_suffix :
    ∀ (cur : List Char) (q : Option Char) (w : List Char),
    slashIn w = false → w <:+ collapse q cur → w <:+ cur := by
  intro cur
  induction cur with
  | nil =>
    intro q w _ hsuf
    exact hsuf
  | cons c rest ih =>
    intro q w hw hsuf
    by_cases hcond : ((c == '/') && (q == some '/')) = true
    · rw [collapse_cons_skip q c rest hcond] at hsuf
      exact (ih q w hw hsuf).trans (List.suffix_cons c rest)
    · rw [collapse_cons_copy q c rest (Bool.eq_false_iff.mpr hcond)] at hsuf
      rcases List.suffix_cons_iff.mp hsuf with heq | htail
      · have hc : (c == '/') = false := by
          rw [heq] at hw
          unfold slashIn at hw
          rw [List.any_cons] at hw
          exact (Bool.or_eq_false_iff.mp hw).1
        have hwtail : slashIn (collapse (some c) rest) = false := by
          rw [heq] at hw
          unfold slashIn at hw
          rw [List.any_cons] at hw
          exact (Bool.or_eq_false_iff.mp hw).2
        have hrest : slashIn rest = false := by
          rcases Bool.eq_false_or_eq_true (slashIn rest) with hr | hr
          · have := collapse_keeps_slash rest (some c)
              (by rw [show ((some c == some '/')) = (c == '/') from rfl, hc]) hr
            rw [this] at hwtail
            exact Bool.noConfusion hwtail
          · exact hr
        rw [collapse_no_slash_id rest (some c) hrest] at heq
        rw [heq]
      · exact (ih (some c) w hw htail).trans (List.suffix_cons c rest)

theorem bool_not_true : ∀ a : Bool, (!a) = true → a = false := by decide

theorem chainFromOk_append :
    ∀ (xs : List Char) (q : Option Char) (c : Char),
    chainFromOk q (xs ++ [c]) =
      (chainFromOk q xs && pairOkOpt (lastD q xs) c) := by
  intro xs
  induction xs with
  | nil =>
    intro q c
    cases q with
    | none => rfl
    | some p => simp [chainFromOk, pairOkOpt, lastD]
  | cons x xs ih =>
    intro q c
    have hlastD : ∀ p0 : Option Char, lastD p0 (x :: xs) = lastD (some x) xs := by
      intro p0
      cases xs with
      | nil => rfl
      | cons b bs =>
        unfold lastD
        rw [List.getLast?_cons_cons]
        cases hgl : (b :: bs).getLast? with
        | none =>
          have hne := List.getLast?_isSome (l := b :: bs)
          rw [hgl] at hne
          simp at hne
        | some y => rfl
    cases q with
    | none =>
      rw [List.cons_append]
      show chainFromOk (some x) (xs ++ [c]) = _
      rw [ih (some x) c, hlastD none]
      rfl
    | some p =>
      rw [List.cons_append]
      show (pairOk p x && chainFromOk (some x) (xs ++ [c])) = _
      rw [ih (some x) c, hlastD (some p)]
      show _ = ((pairOk p x && chainFromOk (some x) xs) && _)
      rw [Bool.and_assoc]

theorem lastD_none_reverse (l : List Char) :
    lastD none l.reverse = l.head? := by
  unfold lastD
  rw [List.getLast?_reverse]
  cases l.head? <;> rfl

theorem chainRev_reverse :
    ∀ (acc : List Char), chainFromOk none acc.reverse = chainRevOk acc := by
  intro acc
  induction acc with
  | nil => rfl
  | cons c acc2 ih =>
    rw [show (c :: acc2).reverse = acc2.reverse ++ [c] from
      List.reverse_cons c acc2]
    rw [chainFromOk_append acc2.reverse none c]
    rw [ih, lastD_none_reverse]
    cases acc2 with
    | nil => rfl
    | cons p rest =>
      show (chainRevOk (p :: rest) && pairOk p c) =
        (pairOk p c && chainRevOk (p :: rest))
      rw [Bool.and_comm]

theorem validAll_reverse (l : List Char) :
    validAll l.reverse = validAll l := by
  unfold validAll
  induction l with
  | nil => rfl
  | cons c cs ih =>
    rw [List.reverse_cons, List.all_append, ih]
    simp [Bool.and_comm]

/-- On a valid, well-paired input the copy loop copies verbatim, spending one
budget unit per character. -/
theorem norm_loop_verbatim :
    ∀ (cur acc : List Char) (s : Nat) (sl : Bool),
    validAll cur = true → chainFromOk acc.head? cur = true → cur.length ≤ s →
    norm_loop cur acc s sl =
      .ok (cur.reverse ++ acc, s - cur.length, sl || slashIn cur) := by
  intro cur
  induction cur with
  | nil =>
    intro acc s sl _ _ _
    simp [norm_loop, slashIn]
  | cons c rest ih =>
    intro acc s sl hvalid hchain hlen
    have hs0 : s ≠ 0 := by
      rw [List.length_cons] at hlen
      omega
    have hvc : is_valid_ref_char c = true := by
      unfold validAll at hvalid
      rw [List.all_eq_true] at hvalid
      exact hvalid c (by simp)
    have hvrest : validAll rest = true := by
      unfold validAll at hvalid ⊢
      rw [List.all_eq_true] at hvalid
      rw [List.all_eq_true]
      intro d hd
      exact hvalid d (by simp [hd])
    have hchain2 : chainFromOk (some c) rest = true := by
      cases hacc : acc.head? with
      | none => rw [hacc] at hchain; exact hchain
      | some p =>
        rw [hacc] at hchain
        have hch : (pairOk p c && chainFromOk (some c) rest) = true := hchain
        rw [Bool.and_eq_true] at hch
        exact hch.2
    have hlen2 : rest.length ≤ s - 1 := by
      rw [List.length_cons] at hlen
      omega
    have hgoal : ∀ acc2 : List Char, acc2 = c :: acc →
        norm_loop rest acc2 (s - 1) (sl || (c == '/')) =
        .ok ((c :: rest).reverse ++ acc, s - (c :: rest).length,
          sl || slashIn (c :: rest)) := by
      intro acc2 hacc2
      subst hacc2
      rw [ih (c :: acc) (s - 1) (sl || (c == '/')) hvrest
        (by rw [show (c :: acc).head? = some c from rfl]; exact hchain2) hlen2]
      congr 1
      simp only [Prod.mk.injEq]
      refine ⟨?_, ?_, ?_⟩
      · rw [List.reverse_cons, List.append_assoc]
        rfl
      · rw [List.length_cons]
        omega
      · unfold slashIn
        rw [List.any_cons, Bool.or_assoc]
    cases acc with
    | nil =>
      unfold norm_loop
      rw [if_neg hs0]
      rw [if_neg (by rw [hvc]; exact fun hh => Bool.noConfusion hh)]
      exact hgoal (c :: []) rfl
    | cons p acc2 =>
      have hchainp : (pairOk p c && chainFromOk (some c) rest) = true := hchain
      rw [Bool.and_eq_true] at hchainp
      obtain ⟨hpair, _⟩ := hchainp
      unfold pairOk at hpair
      rw [Bool.and_eq_true, Bool.and_eq_true] at hpair
      obtain ⟨⟨h1, h2⟩, h3⟩ := hpair
      have hA := bool_not_true _ h1
      have hB := bool_not_true _ h2
      have hC := bool_not_true _ h3
      unfold norm_loop
      rw [if_neg hs0]
      rw [if_neg (by rw [hvc]; exact fun hh => Bool.noConfusion hh)]
      dsimp only
      rw [if_neg (by rw [hA]; exact fun hh => Bool.noConfusion hh)]
      rw [if_neg (by rw [hB]; exact fun hh => Bool.noConfusion hh)]
      rw [if_neg (by rw [hC]; exact fun hh => Bool.noConfusion hh)]
      exact hgoal (c :: p :: acc2) rfl

/-- Characterization of a successful run of the copy loop that did not
exhaust the budget: the output is the slash-collapsed input appended to the
buffer, the budget decreases by the number of copied characters, validity
and the pair condition are invariants of the output buffer, and the slash
flag records whether a slash was copied. -/
theorem norm_loop_ok_spec :
    ∀ (cur acc : List Char) (s : Nat) (sl : Bool) (out : List Char)
      (s2 : Nat) (sl2 : Bool),
    norm_loop cur acc s sl = .ok (out, s2, sl2) → s2 ≠ 0 →
    out = (collapse acc.head? cur).reverse ++ acc ∧
    s2 = s - (collapse acc.head? cur).length ∧
    (validAll acc = true → validAll out = true) ∧
    (chainRevOk acc = true → chainRevOk out = true) ∧
    sl2 = (sl || slashIn (collapse acc.head? cur)) := by
  intro cur
  induction cur with
  | nil =>
    intro acc s sl out s2 sl2 h hs2
    have h0 : norm_loop [] acc s sl = .ok (acc, s, sl) := rfl
    rw [h0] at h
    injection h with h2
    injection h2 with ha h3
    injection h3 with hb hc
    subst ha hb hc
    simp [collapse, slashIn]
  | cons c rest ih =>
    intro acc s sl out s2 sl2 h hs2
    unfold norm_loop at h
    by_cases hs0 : s = 0
    · rw [if_pos hs0] at h
      injection h with h2
      injection h2 with ha h3
      injection h3 with hb hc
      exact absurd hb.symm hs2
    · rw [if_neg hs0] at h
      by_cases hvc : is_valid_ref_char c = true
      · rw [if_neg (by rw [hvc]; exact fun hh => Bool.noConfusion hh)] at h
        cases acc with
        | nil =>
          dsimp only at h
          have spec := ih (c :: []) (s - 1) (sl || (c == '/')) out s2 sl2 h hs2
          obtain ⟨ho, hs, hv, hcr, hsl⟩ := spec
          have ho2 : out = (collapse (some c) rest).reverse ++ (c :: []) := ho
          have hs2eq : s2 = (s - 1) - (collapse (some c) rest).length := hs
          have hv2 : validAll (c :: []) = true → validAll out = true := hv
          have hcr2 : chainRevOk (c :: []) = true → chainRevOk out = true := hcr
          have hsl2 : sl2 = ((sl || (c == '/')) ||
            slashIn (collapse (some c) rest)) := hsl
          refine ⟨?_, ?_, ?_, ?_, ?_⟩
          · rw [show (List.head? ([] : List Char)) = none from rfl,
              collapse_none_cons, List.reverse_cons, ho2]
            simp
          · rw [show (List.head? ([] : List Char)) = none from rfl,
              collapse_none_cons, List.length_cons, hs2eq]
            omega
          · intro _
            apply hv2
            unfold validAll
            rw [List.all_cons, hvc]
            rfl
          · intro _
            apply hcr2
            rfl
          · rw [show (List.head? ([] : List Char)) = none from rfl,
              collapse_none_cons, hsl2]
            unfold slashIn
            rw [List.any_cons, Bool.or_assoc]
        | cons p acc2 =>
          dsimp only at h
          by_cases hA : (c == '.' && (p == '.' || p == '/')) = true
          · rw [if_pos hA] at h
            exact Except.noConfusion h
          · rw [if_neg hA] at h
            have hAf : (c == '.' && (p == '.' || p == '/')) = false :=
              Bool.eq_false_iff.mpr hA
            by_cases hB : (c == '{' && p == '@') = true
            · rw [if_pos hB] at h
              exact Except.noConfusion h
            · rw [if_neg hB] at h
              have hBf : (c == '{' && p == '@') = false :=
                Bool.eq_false_iff.mpr hB
              by_cases hC : (c == '/' && p == '/') = true
              · -- duplicate slash: skipped
                rw [if_pos hC] at h
                have spec := ih (p :: acc2) s sl out s2 sl2 h hs2
                rw [Bool.and_eq_true] at hC
                obtain ⟨hc1, hc2⟩ := hC
                have hceq : collapse (p :: acc2).head? (c :: rest) =
                    collapse (p :: acc2).head? rest :=
                  collapse_cons_skip (some p) c rest
                    (by rw [show ((some p == some '/')) = (p == '/') from rfl,
                      hc1, hc2]; rfl)
                rw [hceq]
                exact spec
              · -- copied
                rw [if_neg hC] at h
                have hCf : (c == '/' && p == '/') = false :=
                  Bool.eq_false_iff.mpr hC
                have spec := ih (c :: p :: acc2) (s - 1) (sl || (c == '/'))
                  out s2 sl2 h hs2
                obtain ⟨ho, hs, hv, hcr, hsl⟩ := spec
                have ho2 : out =
                    (collapse (some c) rest).reverse ++ (c :: p :: acc2) := ho
                have hs2eq : s2 = (s - 1) - (collapse (some c) rest).length := hs
                have hv2 : validAll (c :: p :: acc2) = true →
                    validAll out = true := hv
                have hcr2 : chainRevOk (c :: p :: acc2) = true →
                    chainRevOk out = true := hcr
                have hsl2 : sl2 = ((sl || (c == '/')) ||
                    slashIn (collapse (some c) rest)) := hsl
                have hcopy : collapse (p :: acc2).head? (c :: rest) =
                    c :: collapse (some c) rest :=
                  collapse_cons_copy (some p) c rest
                    (by rw [show ((some p == some '/')) = (p == '/') from rfl]
                        rcases Bool.eq_false_or_eq_true (c == '/') with hcc | hcc
                        · rw [hcc] at hCf ⊢
                          rw [Bool.true_and] at hCf
                          rw [hCf]
                          rfl
                        · rw [hcc]; rfl)
                refine ⟨?_, ?_, ?_, ?_, ?_⟩
                · rw [hcopy, List.reverse_cons, ho2, List.append_assoc]
                  rfl
                · rw [hcopy, List.length_cons, hs2eq]
                  omega
                · intro hva
                  apply hv2
                  unfold validAll at hva ⊢
                  rw [List.all_cons, hvc, hva]
                  rfl
                · intro hcra
                  apply hcr2
                  show (pairOk p c && chainRevOk (p :: acc2)) = true
                  rw [hcra]
                  unfold pairOk
                  rw [hAf, hBf, hCf]
                  rfl
                · rw [hcopy, hsl2]
                  unfold slashIn
                  rw [List.any_cons, Bool.or_assoc]
      · rw [if_pos (by
          rw [show is_valid_ref_char c = false from Bool.eq_false_iff.mpr hvc]
          rfl)] at h
        exact Except.noConfusion h

theorem suffixcmp_eq_zero_iff (str suf : List Char) :
    git__suffixcmp str suf = 0 ↔ suf <:+ str := by
  unfold git__suffixcmp
  by_cases htk : str.reverse.take suf.length = suf.reverse
  · rw [if_pos htk]
    constructor
    · intro _
      rw [← List.reverse_prefix]
      rw [List.prefix_iff_eq_take, List.length_reverse]
      exact htk.symm
    · intro _; rfl
  · rw [if_neg htk]
    constructor
    · intro h01; exact absurd h01 (by decide)
    · intro hsuf
      exfalso
      apply htk
      rw [← List.reverse_prefix] at hsuf
      rw [List.prefix_iff_eq_take, List.length_reverse] at hsuf
      exact hsuf.symm

theorem final_check_false (b : Bool) (l : List Char) :
    (b && git__prefixcmp l GIT_REFS_DIR == 0 &&
      strcmp l GIT_HEAD_FILE == 0) = false := by
  rcases Bool.eq_false_or_eq_true (strcmp l GIT_HEAD_FILE == 0) with hb | hb
  · have hl : l = GIT_HEAD_FILE := (strcmp_eq_zero_iff _ _).mp (eq_of_beq hb)
    subst hl
    rw [show (git__prefixcmp GIT_HEAD_FILE GIT_REFS_DIR == 0) = false from
      by decide]
    rw [Bool.and_false, Bool.false_and]
  · rw [hb, Bool.and_false]

/-- C9: name normalization is idempotent.  Whenever `normalize_name`
succeeds on `name` with output `m` (for any buffer size and either value of
`is_oid_ref`), running it again on `m` with the same arguments succeeds and
returns `m` unchanged. -/
theorem claim_C9_normalize_idem (S : Nat) (name : List Char) (oid : Bool)
    (m : List Char) (h : normalize_name S name oid = .ok m) :
    normalize_name S m oid = .ok m := by
  unfold normalize_name at h
  dsimp only at h
  cases hlast : name.getLast? with
  | none => rw [hlast] at h; exact Except.noConfusion h
  | some lastc =>
    rw [hlast] at h
    dsimp only at h
    by_cases hdot : (lastc == '.' || lastc == '/') = true
    · rw [if_pos hdot] at h; exact Except.noConfusion h
    · rw [if_neg hdot] at h
      have hdotf : (lastc == '.' || lastc == '/') = false :=
        Bool.eq_false_iff.mpr hdot
      obtain ⟨hdot1, hdot2⟩ := Bool.or_eq_false_iff.mp hdotf
      cases hloop : norm_loop name [] (size_t_dec S) false with
      | error e => rw [hloop] at h; exact Except.noConfusion h
      | ok trip =>
        obtain ⟨acc, sRem, sl⟩ := trip
        rw [hloop] at h
        dsimp only at h
        by_cases hrem : sRem = 0
        · rw [if_pos hrem] at h; exact Except.noConfusion h
        · rw [if_neg hrem] at h
          obtain ⟨ho, hsrem0, hv, hcr, hsl0⟩ :=
            norm_loop_ok_spec name [] (size_t_dec S) false acc sRem sl hloop hrem
          have hM : acc = (collapse none name).reverse ++ [] := ho
          have hsrem : sRem = size_t_dec S - (collapse none name).length := hsrem0
          have hsl : sl = (false || slashIn (collapse none name)) := hsl0
          by_cases hoidc : (oid && !sl && !(name == GIT_HEAD_FILE) &&
              !(name == GIT_MERGE_HEAD_FILE) &&
              !(name == GIT_FETCH_HEAD_FILE)) = true
          · rw [if_pos hoidc] at h; exact Except.noConfusion h
          · rw [if_neg hoidc] at h
            by_cases hlock :
                (git__suffixcmp name GIT_FILELOCK_EXTENSION == 0) = true
            · rw [if_pos hlock] at h; exact Except.noConfusion h
            · rw [if_neg hlock] at h
              rw [if_neg (fun hh => by
                rw [final_check_false oid acc.reverse] at hh
                exact Bool.noConfusion hh)] at h
              have hm : m = acc.reverse := by
                injection h with h2
                exact h2.symm
              have hmM : m = collapse none name := by
                rw [hm, hM, List.append_nil, List.reverse_reverse]
              have hvall : validAll m = true := by
                rw [hm, validAll_reverse]
                exact hv rfl
              have hchainm : chainFromOk none m = true := by
                rw [hm, chainRev_reverse]
                exact hcr rfl
              have hslm : slashIn m = sl := by
                rw [hmM, hsl, Bool.false_or]
              have hlenm : m.length < size_t_dec S := by
                rw [hmM]
                omega
              have hoid2 : (oid && !(false || slashIn m) &&
                  !(m == GIT_HEAD_FILE) && !(m == GIT_MERGE_HEAD_FILE) &&
                  !(m == GIT_FETCH_HEAD_FILE)) = false := by
                rcases Bool.eq_false_or_eq_true (oid && !(false || slashIn m) &&
                    !(m == GIT_HEAD_FILE) && !(m == GIT_MERGE_HEAD_FILE) &&
                    !(m == GIT_FETCH_HEAD_FILE)) with hb | hb
                · exfalso
                  rw [Bool.and_eq_true, Bool.and_eq_true, Bool.and_eq_true,
                    Bool.and_eq_true] at hb
                  obtain ⟨⟨⟨⟨hbo, hbsl⟩, hbH⟩, hbM⟩, hbF⟩ := hb
                  have hslmf : slashIn m = false := by
                    have h0 := bool_not_true _ hbsl
                    rw [Bool.false_or] at h0
                    exact h0
                  have hslf : sl = false := by
                    rw [hslm] at hslmf
                    exact hslmf
                  have hnX : ∀ X : List Char, slashIn X = false →
                      (m == X) = false → (name == X) = false := by
                    intro X hXs hmX
                    rcases Bool.eq_false_or_eq_true (name == X) with hb2 | hb2
                    · exfalso
                      have hname : name = X := eq_of_beq hb2
                      have hmx : m = X := by
                        rw [hmM, hname, collapse_no_slash_id X none hXs]
                      rw [hmx, beq_self_eq_true X] at hmX
                      exact Bool.noConfusion hmX
                    · exact hb2
                  have h1 := hnX GIT_HEAD_FILE (by decide) (bool_not_true _ hbH)
                  have h2 := hnX GIT_MERGE_HEAD_FILE (by decide)
                    (bool_not_true _ hbM)
                  have h3 := hnX GIT_FETCH_HEAD_FILE (by decide)
                    (bool_not_true _ hbF)
                  apply hoidc
                  rw [Bool.and_eq_true, Bool.and_eq_true, Bool.and_eq_true,
                    Bool.and_eq_true]
                  exact ⟨⟨⟨⟨hbo, by rw [hslf]; rfl⟩, by rw [h1]; rfl⟩,
                    by rw [h2]; rfl⟩, by rw [h3]; rfl⟩
                · exact hb
              have hlock2 :
                  (git__suffixcmp m GIT_FILELOCK_EXTENSION == 0) = false := by
                rcases Bool.eq_false_or_eq_true
                    (git__suffixcmp m GIT_FILELOCK_EXTENSION == 0) with hb | hb
                · exfalso
                  have hsf : GIT_FILELOCK_EXTENSION <:+ m :=
                    (suffixcmp_eq_zero_iff _ _).mp (eq_of_beq hb)
                  rw [hmM] at hsf
                  have hsn : GIT_FILELOCK_EXTENSION <:+ name :=
                    collapse_suffix name none GIT_FILELOCK_EXTENSION
                      (by decide) hsf
                  apply hlock
                  rw [(suffixcmp_eq_zero_iff name GIT_FILELOCK_EXTENSION).mpr hsn]
                  rfl
                · exact hb
              unfold normalize_name
              dsimp only
              rw [show m.getLast? = some lastc from by
                rw [hmM]; exact collapse_getLast name none lastc hlast hdot2]
              dsimp only
              rw [if_neg hdot]
              rw [norm_loop_verbatim m [] (size_t_dec S) false hvall hchainm
                (le_of_lt hlenm)]
              dsimp only
              rw [if_neg (show ¬(size_t_dec S - m.length = 0) from by omega)]
              rw [List.append_nil m.reverse, List.reverse_reverse m]
              rw [if_neg (by rw [hoid2]; exact fun hh => Bool.noConfusion hh)]
              rw [if_neg (by rw [hlock2]; exact fun hh => Bool.noConfusion hh)]
              rw [if_neg (fun hh => by
                rw [final_check_false oid m] at hh
                exact Bool.noConfusion hh)]

/-- Witness for C9 at the spec's own normalization example. -/
theorem claim_C9_witness :
    normalize_name GIT_REFNAME_MAX (L "refs//heads///x") false =
      .ok (L "refs/heads/x") ∧
    normalize_name GIT_REFNAME_MAX (L "refs/heads/x") false =
      .ok (L "refs/heads/x") :=
  ⟨rfl, claim_C9_normalize_idem GIT_REFNAME_MAX (L "refs//heads///x") false
    (L "refs/heads/x") rfl⟩

end Refs
